import Mathlib

/-!
Verification of the incremental SSZ hash-tree core of `py-ssz`
(`ssz/hashable_structure.py`, `ssz/hashable_list.py`, `ssz/hashable_vector.py`).

Shallow embedding conventions:
* Python `bytes` values become `List Nat` (one entry per byte; byte values are
  opaque to all of the chunking code, so no `% 256` normalisation is needed).
* Python exceptions become `Except Err _` with one `Err` constructor per error
  kind named in the specification.
* `pyrsistent.PVector` values become `List _`; its `mset`/`extend`/indexing are
  translated to pure list operations.
* Python dictionaries (insertion ordered, unique keys) become association
  lists `List (Nat × _)` that the evolver keeps insertion ordered with unique
  keys, mirroring CPython dict semantics.

Components of the repository that are not part of the provided sources
(`ssz/hash_tree.py`, `ssz/constants.py`, `ssz/utils.py`, the sedes capability
used by `hashable_structure.py`) are modelled from the specification; every
such definition carries a doc comment starting with `Modelled from the spec:`.
-/

set_option autoImplicit false

namespace SSZ

variable {α β : Type}

/-! ## Definitions -/

/-- Modelled from the spec: `ssz/constants.py` is not in the sources; §3 fixes
`CHUNK_SIZE = 32`. -/
def CHUNK_SIZE : Nat := 32

/-- A byte string: one `Nat` per byte. -/
abbrev Bytes := List Nat

/-- Modelled from the spec: the distinguished all-zero chunk (`ZERO_BYTES32` in
`ssz/constants.py`, §3 "A distinguished `ZERO_CHUNK` is the all-zero chunk"). -/
def ZERO_BYTES32 : Bytes := List.replicate 32 0

/-- The error kinds of §7 that the embedded code can raise. -/
inductive Err where
  | invalidElementSize
  | indexOutOfRange
  | capacityExceeded
  | argumentError
  deriving Repr, DecidableEq

/-! ### A small list toolkit

`nthD d l j` is `l[j]` with default `d` (Python's `l[j]` where the embedding
has already established the bound, or a definite default); `setNth` is
`pyrsistent`'s persistent single-index `set`.  All chunk/byte reasoning below
goes through these two functions. -/

def nthD (d : α) : List α → Nat → α
  | [], _ => d
  | a :: _, 0 => a
  | _ :: l, j + 1 => nthD d l j

def setNth : List α → Nat → α → List α
  | [], _, _ => []
  | _ :: l, 0, b => b :: l
  | a :: l, j + 1, b => a :: setNth l j b

/-! ### Chunk-level updates (`ssz/hashable_structure.py`) -/

/-- Translation of `update_element_in_chunk` (src/ssz/hashable_structure.py,
lines 39-69).  The Python code raises `ValueError` for a zero or non-divisor
element size and `IndexError` for an out-of-range index; the docstring's names
for these failures are `InvalidElementSize` and `IndexOutOfRange`. -/
def update_element_in_chunk (original_chunk : Bytes) (index : Nat)
    (element : Bytes) : Except Err Bytes :=
  let element_size := element.length
  let chunk_size := original_chunk.length
  if element_size = 0 then .error .invalidElementSize
  else if chunk_size % element_size ≠ 0 then .error .invalidElementSize
  else if ¬ index < chunk_size / element_size then .error .indexOutOfRange
  else
    let first_byte_index := index * element_size
    let last_byte_index := first_byte_index + element_size
    .ok (original_chunk.take first_byte_index ++ element ++
      original_chunk.drop last_byte_index)

/-- Translation of `update_elements_in_chunk` (lines 72-86): the updates are
piped through `update_element_in_chunk` one by one in dictionary order. -/
def update_elements_in_chunk (original_chunk : Bytes)
    (updated_elements : List (Nat × Bytes)) : Except Err Bytes :=
  updated_elements.foldlM
    (fun chunk p => update_element_in_chunk chunk p.1 p.2) original_chunk

/-- Translation of `get_num_padding_elements` (lines 89-97). -/
def get_num_padding_elements (num_original_chunks num_original_elements
    element_size : Nat) : Nat :=
  (num_original_chunks * CHUNK_SIZE - num_original_elements * element_size) /
    element_size

/-! ### Association lists with CPython dict semantics -/

def alookup : Nat → List (Nat × α) → Option α
  | _, [] => none
  | k, (k', v) :: l => if k = k' then some v else alookup k l

/-- Dict item assignment `d[k] = v`: replaces the value in place if the key is
present, otherwise appends the binding (CPython insertion order). -/
def dictSet : List (Nat × α) → Nat → α → List (Nat × α)
  | [], k, v => [(k, v)]
  | (k', v') :: l, k, v =>
    if k = k' then (k', v) :: l else (k', v') :: dictSet l k v

/-- Dict merge `{**a, **b}`: the keys of `a` in order (with `b`'s value where
both bind a key), then the keys of `b` not in `a`, in order. -/
def dictMerge (a b : List (Nat × α)) : List (Nat × α) :=
  a.map (fun p => (p.1, (alookup p.1 b).getD p.2)) ++
    b.filter (fun p => (alookup p.1 a).isNone)

/-- `enumerate(l, start)`. -/
def enumFrom (start : Nat) : List α → List (Nat × α)
  | [] => []
  | a :: l => (start, a) :: enumFrom (start + 1) l

/-- The distinct values of a list in order of first appearance: the key order
of `toolz.groupby` (a CPython dict built by insertion). -/
def firstDedup (l : List Nat) : List Nat :=
  l.foldl (fun acc k => if k ∈ acc then acc else acc ++ [k]) []

/-- Recursion worker for `partitionPad`; the fuel argument (instantiated with
the list length, which strictly bounds the recursion depth) only makes the
recursion structural, it never changes the result (`partitionPadAux_irrel`). -/
def partitionPadAux (n : Nat) (pad : α) : Nat → List α → List (List α)
  | 0, _ => []
  | _, [] => []
  | fuel + 1, l =>
    if l.length ≤ n then [l ++ List.replicate (n - l.length) pad]
    else l.take n :: partitionPadAux n pad fuel (l.drop n)

/-- `eth_utils.toolz.partition(n, seq, pad)`: split into groups of `n`, the
last group right-padded with `pad` to full size.  (`n = 0` cannot occur at the
call sites of this repository; returning `[]` keeps the function total.) -/
def partitionPad (n : Nat) (l : List α) (pad : α) : List (List α) :=
  if n = 0 then [] else partitionPadAux n pad l.length l

/-- Translation of `get_appended_chunks` (src/ssz/hashable_structure.py,
lines 153-171). -/
def get_appended_chunks (appended_elements : List Bytes)
    (num_padding_elements : Nat) : List Bytes :=
  if appended_elements.length ≤ num_padding_elements then []
  else
    let some_element := appended_elements.headD []
    let element_size := some_element.length
    let elements_per_chunk := CHUNK_SIZE / element_size
    (partitionPad elements_per_chunk
      (appended_elements.drop num_padding_elements)
      (List.replicate element_size 0)).map List.flatten

/-- Translation of `get_updated_chunks` (lines 100-150).  The Python dict
arguments are insertion-ordered association lists; `toolz.groupby` produces,
for each chunk index in order of first appearance, the updates hitting that
chunk in encounter order; the access `original_chunks[chunk_index]` and the
inner `update_element_in_chunk` calls can raise. -/
def get_updated_chunks (updated_elements : List (Nat × Bytes))
    (appended_elements : List Bytes) (original_chunks : List Bytes)
    (num_original_elements num_padding_elements : Nat) :
    Except Err (List (Nat × Bytes)) :=
  let effective_appended_elements :=
    appended_elements.take num_padding_elements
  match (updated_elements.head?.map Prod.snd).orElse
      (fun _ => effective_appended_elements.head?) with
  | none => .ok []
  | some some_element =>
    let element_size := some_element.length
    let elements_per_chunk := CHUNK_SIZE / element_size
    let padding_elements_with_indices :=
      enumFrom num_original_elements effective_appended_elements
    let effective_updated_elements :=
      dictMerge updated_elements padding_elements_with_indices
    let chunk_indices := firstDedup
      (effective_updated_elements.map (fun p => p.1 / elements_per_chunk))
    chunk_indices.mapM fun chunk_index => do
      let chunk_updates := effective_updated_elements.filterMap fun p =>
        if p.1 / elements_per_chunk = chunk_index
        then some (p.1 % elements_per_chunk, p.2) else none
      if h : chunk_index < original_chunks.length then do
        let updated ← update_elements_in_chunk
          (original_chunks.get ⟨chunk_index, h⟩) chunk_updates
        pure (chunk_index, updated)
      else .error .indexOutOfRange

/-! ### The Merkle tree (`ssz/hash_tree.py`, not in the sources) -/

/-- Modelled from the spec: the persistent Merkle tree of `ssz/hash_tree.py`
(§4.3), represented by its observable state: the chunk vector and the leaf
capacity (`chunk_count`).  §4.3's sparse internal-node map is memoization
whose only observable output is `root`; invariant (b) ("the tree's root is
consistent with the current chunk vector") determines `root` from the chunks,
so the embedding computes it on demand by padding the leaves to `2^d` zero
chunks and hashing pairwise, which coincides with the zero-hash (`Z[k]`)
shortcut of §4.1/§4.3. -/
structure HashTree where
  chunks : List Bytes
  limit : Nat
  deriving Repr, DecidableEq

/-- The least `d` with `n ≤ 2 ^ d`, i.e. `⌈log₂ n⌉` for `n ≥ 1`, computed by
search so that it evaluates structurally. -/
def ceilLog2 (n : Nat) : Nat :=
  ((List.range (n + 1)).find? (fun d => decide (n ≤ 2 ^ d))).getD n

/-- Modelled from the spec: §4.3, depth `d = ⌈log₂(max(chunk_count, 1))⌉`. -/
def HashTree.depth (limit : Nat) : Nat := ceilLog2 (max limit 1)

/-- One level of pairwise hashing (§4.3 algorithm, one `k` step). -/
def hashLevel (H : Bytes → Bytes → Bytes) : List Bytes → List Bytes
  | a :: b :: rest => H a b :: hashLevel H rest
  | l => l

/-- Modelled from the spec: §4.3 root of the padded binary Merkle tree with
`2^d` leaf slots over the given leaves. -/
def merkleize (H : Bytes → Bytes → Bytes) (leaves : List Bytes) (d : Nat) :
    Bytes :=
  ((hashLevel H)^[d]
    (leaves ++ List.replicate (2 ^ d - leaves.length) ZERO_BYTES32)).headD
    ZERO_BYTES32

/-- Modelled from the spec: `HashTree.root` (§4.3 public contract). -/
def HashTree.root (H : Bytes → Bytes → Bytes) (t : HashTree) : Bytes :=
  merkleize H t.chunks (HashTree.depth t.limit)

/-- Modelled from the spec: `HashTree.compute(chunks, chunk_count)` (§4.3):
"Build from scratch.  `chunk_count` fixes the tree's leaf capacity.  Empty
input is treated as `[ZERO_CHUNK]`.  Chunks beyond `chunk_count` is a
programming error (`CapacityExceeded`)." -/
def HashTree.compute (chunks : List Bytes) (chunk_count : Nat) :
    Except Err HashTree :=
  let chunks := if chunks.isEmpty then [ZERO_BYTES32] else chunks
  if chunk_count < chunks.length then .error .capacityExceeded
  else .ok ⟨chunks, chunk_count⟩

/-- Modelled from the spec: `HashTree.mset` (§4.3): "Replace a batch of chunks
at given leaf positions.  Indices must be within the current chunk vector
length." -/
def HashTree.mset (t : HashTree) (pairs : List (Nat × Bytes)) :
    Except Err HashTree :=
  if pairs.all (fun p => p.1 < t.chunks.length) then
    .ok ⟨pairs.foldl (fun acc p => setNth acc p.1 p.2) t.chunks, t.limit⟩
  else .error .indexOutOfRange

/-- Modelled from the spec: `HashTree.extend` (§4.3): "Append chunks; total
length must stay ≤ capacity `2^d`." -/
def HashTree.extend (t : HashTree) (new_chunks : List Bytes) :
    Except Err HashTree :=
  if 2 ^ HashTree.depth t.limit < t.chunks.length + new_chunks.length then
    .error .capacityExceeded
  else .ok ⟨t.chunks ++ new_chunks, t.limit⟩

/-! ### Hashable structures (`ssz/hashable_structure.py`) -/

/-- Modelled from the spec: the sedes capability consumed by the core (§4.4);
`serialize_element_for_tree` is the `serialize_leaf(index, element)` of §4.4
and `chunk_count` the tree's leaf capacity.  The concrete sedes classes are
outside the provided core sources. -/
structure Sedes (α : Type) where
  serialize_element_for_tree : Nat → α → Bytes
  chunk_count : Nat

/-- Translation of `BaseHashableStructure.__init__` (lines 174-183): the
`(elements, hash_tree, sedes)` triple. -/
structure HashableStructure (α : Type) where
  elements : List α
  hash_tree : HashTree
  sedes : Sedes α

/-- The serialized leaf byte strings of a structure's element sequence
(`sedes.serialize_element_for_tree(index, element)` for each index). -/
def serializedElements (sedes : Sedes α) (elements : List α) : List Bytes :=
  (enumFrom 0 elements).map fun p => sedes.serialize_element_for_tree p.1 p.2

/-- Translation of `BaseHashableStructure.from_iterable` (lines 185-196), with
one call-site arity reconciled per the spec: the source line 192 passes extra
positional arguments to `get_appended_chunks` that the signature defined at
lines 153-156 of the same file does not accept; spec §9 flags exactly this and
fixes the canonical contract `get_appended_chunks(elements, n_padding)` with
`n_padding = 0` for the initial build. -/
def from_iterable (iterable : List α) (sedes : Sedes α) :
    Except Err (HashableStructure α) := do
  let elements := iterable
  let serialized_elements := serializedElements sedes elements
  let appended_chunks := get_appended_chunks serialized_elements 0
  let hash_tree ← HashTree.compute
    (if appended_chunks.isEmpty then [ZERO_BYTES32] else appended_chunks)
    sedes.chunk_count
  pure ⟨elements, hash_tree, sedes⟩

/-- Translation of `HashableStructureEvolver.__init__` (lines 253-260) plus
the `_appended_elements` staging list used by the resizable subclass. -/
structure Evolver (α : Type) where
  original_structure : HashableStructure α
  updated_elements : List (Nat × α)
  appended_elements : List α

/-- Translation of `BaseHashableStructure.evolver` /
`BaseResizableHashableStructure.evolver` (lines 247-250, 356-359). -/
def HashableStructure.evolver (s : HashableStructure α) : Evolver α :=
  ⟨s, [], []⟩

/-- Translation of `HashableStructureEvolver.__getitem__` (lines 262-266): a
pending update wins, otherwise the read falls through to the original
structure's indexing, which fails with `IndexOutOfRange` at or beyond the
original length. -/
def Evolver.get (ev : Evolver α) (index : Nat) : Except Err α :=
  match alookup index ev.updated_elements with
  | some v => .ok v
  | none =>
    match ev.original_structure.elements.get? index with
    | some x => .ok x
    | none => .error .indexOutOfRange

/-- Translation of `HashableStructureEvolver.__setitem__` (lines 271-275):
the accepted range is `0 ≤ index < len(self)` where `__len__` is the length
of the original structure (lines 277-278). -/
def Evolver.set (ev : Evolver α) (index : Nat) (element : α) :
    Except Err (Evolver α) :=
  if index < ev.original_structure.elements.length then
    .ok { ev with updated_elements := dictSet ev.updated_elements index element }
  else .error .indexOutOfRange

/-- Translation of `HashableStructureEvolver.__len__` (lines 277-278). -/
def Evolver.length (ev : Evolver α) : Nat :=
  ev.original_structure.elements.length

/-- Translation of `HashableStructureEvolver.is_dirty` (lines 280-281). -/
def Evolver.is_dirty (ev : Evolver α) : Bool :=
  !(ev.updated_elements.isEmpty && ev.appended_elements.isEmpty)

/-- Translation of `ResizableHashableStructureEvolver.append` (lines 365-366). -/
def Evolver.append (ev : Evolver α) (element : α) : Evolver α :=
  { ev with appended_elements := ev.appended_elements ++ [element] }

/-- Translation of `ResizableHashableStructureEvolver.extend`
(lines 368-369). -/
def Evolver.extend (ev : Evolver α) (elements : List α) : Evolver α :=
  { ev with appended_elements := ev.appended_elements ++ elements }

/-- Translation of `HashableStructureEvolver.persistent` (lines 283-325).
The source's calls at lines 300-310 pass argument lists that do not match the
signatures `get_updated_chunks` and `get_appended_chunks` are given at lines
100-107 and 153-156 of the same file (spec §9 flags this family of call-site
arity mismatches); following the canonical algorithm of spec §4.6, the missing
`num_padding_elements` argument is computed by
`get_num_padding_elements(|original.chunks|, len(original), element_size)`
with the element size inferred from any edit (from `a_bytes[0]` when there are
no updates), and `get_appended_chunks` receives `(a_bytes, n_padding)`. -/
def Evolver.persistent (ev : Evolver α) : Except Err (HashableStructure α) :=
  if ¬ ev.is_dirty then .ok ev.original_structure
  else
    let s := ev.original_structure
    let updated_elements := ev.updated_elements.map fun p =>
      (p.1, s.sedes.serialize_element_for_tree p.1 p.2)
    let appended_elements :=
      (enumFrom s.elements.length ev.appended_elements).map fun p =>
        s.sedes.serialize_element_for_tree p.1 p.2
    let element_size :=
      match updated_elements.head? with
      | some p => p.2.length
      | none => (appended_elements.headD []).length
    let num_padding_elements := get_num_padding_elements
      s.hash_tree.chunks.length s.elements.length element_size
    do
      let updated_chunks ← get_updated_chunks updated_elements
        appended_elements s.hash_tree.chunks s.elements.length
        num_padding_elements
      let appended_chunks := get_appended_chunks appended_elements
        num_padding_elements
      let elements := (ev.updated_elements.foldl
        (fun acc p => setNth acc p.1 p.2) s.elements) ++ ev.appended_elements
      let tree1 ← s.hash_tree.mset updated_chunks
      let hash_tree ← tree1.extend appended_chunks
      pure ⟨elements, hash_tree, s.sedes⟩

/-- Translation of `BaseHashableStructure.mset` (lines 233-242); the Python
flat argument list (whose odd arity raises `ArgumentError` before any edit)
is typed as index/value pairs, and the loop stages each pair on a fresh
evolver before `persistent()`. -/
def HashableStructure.mset (s : HashableStructure α) (args : List (Nat × α)) :
    Except Err (HashableStructure α) := do
  let ev ← args.foldlM (fun ev p => Evolver.set ev p.1 p.2) s.evolver
  ev.persistent

/-- Translation of `BaseHashableStructure.set` (lines 244-245). -/
def HashableStructure.set (s : HashableStructure α) (index : Nat) (value : α) :
    Except Err (HashableStructure α) :=
  s.mset [(index, value)]

/-- Translation of `BaseResizableHashableStructure.append` (lines 331-334). -/
def HashableStructure.append (s : HashableStructure α) (value : α) :
    Except Err (HashableStructure α) :=
  (Evolver.append s.evolver value).persistent

/-- Translation of `BaseResizableHashableStructure.extend` (lines 336-341). -/
def HashableStructure.extend (s : HashableStructure α) (values : List α) :
    Except Err (HashableStructure α) :=
  (Evolver.extend s.evolver values).persistent

/-- Translation of `BaseResizableHashableStructure.__add__` (lines 343-346). -/
def HashableStructure.add (s : HashableStructure α) (values : List α) :
    Except Err (HashableStructure α) :=
  s.extend values

/-- Recursion worker for `HashableStructure.mul`; the fuel argument
(instantiated with `(times - 1).toNat`, which exactly matches the recursion
depth) only makes the recursion structural: the `fuel = 0` fallback is
unreachable because `times ≥ 2` forces `fuel ≥ 1` at every call. -/
def HashableStructure.mulAux :
    Nat → HashableStructure α → Int → Except Err (HashableStructure α)
  | 0, s, times =>
    if times ≤ 0 then .error .argumentError
    else if times = 1 then .ok s
    else .error .argumentError
  | fuel + 1, s, times =>
    if times ≤ 0 then .error .argumentError
    else if times = 1 then .ok s
    else do
      let doubled ← s.add s.elements
      HashableStructure.mulAux fuel doubled (times - 1)

/-- Translation of `BaseResizableHashableStructure.__mul__` (lines 348-354):
`times ≤ 0` raises `ArgumentError` (`ValueError` in the source), `times = 1`
returns `self`, otherwise the result is `(self + self) * (times - 1)`. -/
def HashableStructure.mul (s : HashableStructure α) (times : Int) :
    Except Err (HashableStructure α) :=
  HashableStructure.mulAux (times - 1).toNat s times

/-! ### List root (`ssz/hashable_list.py`, `ssz/utils.py`) -/

/-- `int.to_bytes(n, "little")`: the `n`-byte little-endian encoding. -/
def natToBytesLE : Nat → Nat → Bytes
  | 0, _ => []
  | n + 1, k => k % 256 :: natToBytesLE n (k / 256)

/-- Modelled from the spec: `mix_in_length` from `ssz/utils.py` (not in the
sources): `root = H(raw_root ‖ le256(len))` where `le256(k)` is the 32-byte
little-endian encoding of the element count (§4.5 "List wrapper", glossary
"Length mixing").  `H` takes the two 32-byte halves of the 64-byte input. -/
def mix_in_length (H : Bytes → Bytes → Bytes) (root : Bytes) (length : Nat) :
    Bytes :=
  H root (natToBytesLE 32 length)

/-- Translation of `HashableList.root` (src/ssz/hashable_list.py, lines
21-23): `mix_in_length(self.raw_root, len(self))`, where `raw_root` is
`hash_tree.root` (src/ssz/hashable_structure.py, lines 210-212). -/
def listRoot (H : Bytes → Bytes → Bytes) (s : HashableStructure α) : Bytes :=
  mix_in_length H (HashTree.root H s.hash_tree) s.elements.length

/-! ### A heap model for persistence claims

Python structures are heap objects; `persistent()` only reads the original
structure and constructs a fresh object (`self._original_structure.__class__(
elements, hash_tree, sedes)`, line 323), and the pyrsistent vectors and dicts
it uses are persistent (§3 "Ownership", §9 "Persistent map / sequence"), so at
the heap level every dirty commit allocates a new slot and no operation ever
writes an existing slot; the non-dirty path (lines 284-285) returns the
original reference itself without allocating.  A heap is the list of allocated

structure objects and a reference is an index into it. -/

def runEvolverCommit (heap : List (HashableStructure α)) (ref : Nat)
    (stage : Evolver α → Except Err (Evolver α)) :
    Except Err (List (HashableStructure α) × Nat) :=
  match heap.get? ref with
  | none => .error .indexOutOfRange
  | some s => do
    let ev ← stage s.evolver
    if ¬ ev.is_dirty then pure (heap, ref)
    else do
      let t ← ev.persistent
      pure (heap ++ [t], heap.length)

/-- Heap-level `mset` (and hence `set`): stages the argument pairs on a fresh
evolver rooted at the referenced structure and commits. -/
def runMset (heap : List (HashableStructure α)) (ref : Nat)
    (args : List (Nat × α)) : Except Err (List (HashableStructure α) × Nat) :=
  runEvolverCommit heap ref fun ev =>
    args.foldlM (fun ev p => Evolver.set ev p.1 p.2) ev

/-- One staged edit on an evolver: an in-range update, an append, or an
extend (the resizable evolver's operations). -/
inductive EditOp (α : Type) where
  | set (index : Nat) (value : α)
  | append (value : α)
  | extend (values : List α)

def Evolver.applyEdit (ev : Evolver α) : EditOp α → Except Err (Evolver α)
  | .set i v => ev.set i v
  | .append v => .ok (ev.append v)
  | .extend vs => .ok (ev.extend vs)

def Evolver.applyEdits (ev : Evolver α) (E : List (EditOp α)) :
    Except Err (Evolver α) :=
  E.foldlM Evolver.applyEdit ev

/-- Heap-level evolver round trip: stage an arbitrary edit sequence on a fresh
evolver rooted at the referenced structure, then `persistent()`. -/
def runEdits (heap : List (HashableStructure α)) (ref : Nat)
    (E : List (EditOp α)) : Except Err (List (HashableStructure α) × Nat) :=
  runEvolverCommit heap ref fun ev => ev.applyEdits E

/-- The element sequence an edit sequence denotes when replayed directly on a
plain list: `set` writes in place, `append`/`extend` add at the end. -/
def applyEditsToList (l : List α) : List (EditOp α) → List α
  | [] => l
  | .set i v :: E => applyEditsToList (setNth l i v) E
  | .append v :: E => applyEditsToList (l ++ [v]) E
  | .extend vs :: E => applyEditsToList (l ++ vs) E

/-! ### The claim-side from-scratch pipeline (C2) -/

/-- The from-scratch root recomputation named by the functional-correctness
claim, written out independently following the spec's words (§4.5
`from_iterable`, §8 property 1): serialize each element to leaf bytes, pack
into chunks via `get_appended_chunks` with `n_padding = 0`, and take the root
of a tree of leaf capacity `sedes.chunk_count` over those chunks, with
`[ZERO_CHUNK]` for an empty input. -/
def recompute_root_from_scratch (H : Bytes → Bytes → Bytes)
    (iterable : List α) (sedes : Sedes α) : Bytes :=
  let serialized := serializedElements sedes iterable
  let chunks := get_appended_chunks serialized 0
  merkleize H (if chunks.isEmpty then [ZERO_BYTES32] else chunks)
    (HashTree.depth sedes.chunk_count)

/-! ### Concrete fixtures for witnesses and counterexamples -/

/-- A concrete sedes over `Nat` elements: every element serializes to a full
32-byte chunk (the composite-element shape of §3), capacity 4 chunks. -/
def sedes32 : Sedes Nat := ⟨fun _ x => List.replicate 32 x, 4⟩

/-- A one-element structure over `sedes32` whose hash tree is consistent with
its element sequence. -/
def oneElemS : HashableStructure Nat :=
  ⟨[5], ⟨[List.replicate 32 5], 4⟩, sedes32⟩

/-- A concrete sedes over `Nat` elements with 16-byte leaves (two elements
per chunk, the packed basic-element shape of §3), capacity 4 chunks. -/
def sedes16 : Sedes Nat := ⟨fun _ x => List.replicate 16 x, 4⟩

/-- A two-element structure over `sedes16` (both elements share one chunk)
whose hash tree is consistent with its element sequence. -/
def twoElemS : HashableStructure Nat :=
  ⟨[7, 9], ⟨[List.replicate 16 7 ++ List.replicate 16 9], 4⟩, sedes16⟩

/-! ### Named pieces of `persistent` and update application -/

/-- Batched in-place updates on a list (the effect of `pyrsistent`'s
`mset`): later pairs win. -/
def applyUpdates (base : List α) (upd : List (Nat × α)) : List α :=
  upd.foldl (fun acc p => setNth acc p.1 p.2) base

/-- The serialized pending updates of an evolver (`u_bytes` of §4.6 step 2). -/
def evUpdatedBytes (ev : Evolver α) : List (Nat × Bytes) :=
  ev.updated_elements.map fun p =>
    (p.1, ev.original_structure.sedes.serialize_element_for_tree p.1 p.2)

/-- The serialized pending appends of an evolver (`a_bytes` of §4.6 step 2). -/
def evAppendedBytes (ev : Evolver α) : List Bytes :=
  (enumFrom ev.original_structure.elements.length ev.appended_elements).map
    fun p => ev.original_structure.sedes.serialize_element_for_tree p.1 p.2

/-- The element size `persistent` infers for §4.6 step 3. -/
def evElementSize (ev : Evolver α) : Nat :=
  match (evUpdatedBytes ev).head? with
  | some p => p.2.length
  | none => ((evAppendedBytes ev).headD []).length

/-- The padding-slot count `persistent` computes for §4.6 step 3. -/
def evNumPadding (ev : Evolver α) : Nat :=
  get_num_padding_elements ev.original_structure.hash_tree.chunks.length
    ev.original_structure.elements.length (evElementSize ev)

/-- `alookup` with a default: the value an association list assigns to a key,
or the default when the key is unbound. -/
def lookupD (d : α) (k : Nat) (l : List (Nat × α)) : α :=
  match alookup k l with
  | some v => v
  | none => d

/-! ### C1 infrastructure: the packed-chunk view

`viewChunks e l` is the chunk list that packing an `e`-uniform element
sequence `l` produces, expressed pointwise (`chunkOfView`) so that both the
from-scratch pipeline and the evolver's incremental pipeline can be compared
chunk by chunk and slot by slot. -/

def epc (e : Nat) : Nat := CHUNK_SIZE / e

def zeroElem (e : Nat) : Bytes := List.replicate e 0

/-- Element `j` of an element sequence, zero element beyond the end. -/
def elemAtD (e : Nat) (l : List Bytes) (j : Nat) : Bytes := nthD (zeroElem e) l j

/-- The `epc e` element slots of chunk `c` of the packed form of `l`. -/
def chunkPieces (e : Nat) (l : List Bytes) (c : Nat) : List Bytes :=
  (List.range (epc e)).map fun r => elemAtD e l (c * epc e + r)

/-- Chunk `c` of the packed form of `l`. -/
def chunkOfView (e : Nat) (l : List Bytes) (c : Nat) : Bytes :=
  (chunkPieces e l c).flatten

/-- The number of chunks the packed form of `l` occupies. -/
def numChunksOf (e : Nat) (l : List Bytes) : Nat :=
  (l.length + epc e - 1) / epc e

def viewChunks (e : Nat) (l : List Bytes) : List Bytes :=
  (List.range (numChunksOf e l)).map (chunkOfView e l)

/-- The chunk vector a structure over an `e`-uniform serialized element
sequence carries: one zero chunk for an empty sequence, otherwise the packed
chunks. -/
def packedView (e : Nat) (ser : List Bytes) : List Bytes :=
  if ser.isEmpty then [chunkOfView e ser 0] else viewChunks e ser

/-! ### The structure invariant and the evolver invariant (C1) -/

/-- The consistency invariant a structure built (and rebuilt) by this code
maintains: the tree's chunk vector is the packed view of the serialized
element sequence, and the tree's leaf capacity is the sedes' chunk count. -/
def StructInv (e : Nat) (s : HashableStructure α) : Prop :=
  s.hash_tree.chunks = packedView e (serializedElements s.sedes s.elements) ∧
  s.hash_tree.limit = s.sedes.chunk_count

/-- The invariant the evolver's staging state keeps relative to the edit
sequence replayed directly on a plain element list. -/
def EvInv (s : HashableStructure α) (l : List α) (ev : Evolver α) : Prop :=
  ev.original_structure = s ∧
  (ev.updated_elements.map Prod.fst).Nodup ∧
  (∀ q ∈ ev.updated_elements, q.1 < s.elements.length) ∧
  applyUpdates s.elements ev.updated_elements ++ ev.appended_elements = l

/-! ## Theorems -/

@[simp] theorem nthD_nil (d : α) (j : Nat) : nthD d [] j = d := rfl

@[simp] theorem nthD_cons_zero (d a : α) (l : List α) : nthD d (a :: l) 0 = a := rfl

@[simp] theorem nthD_cons_succ (d a : α) (l : List α) (j : Nat) :
    nthD d (a :: l) (j + 1) = nthD d l j := rfl

theorem nthD_eq_getD (d : α) (l : List α) (j : Nat) : nthD d l j = l.getD j d := by
  induction l generalizing j with
  | nil => simp [nthD]
  | cons a l ih => cases j <;> simp [nthD, ih]

theorem nthD_of_length_le (d : α) {l : List α} {j : Nat} (h : l.length ≤ j) :
    nthD d l j = d := by
  induction l generalizing j with
  | nil => rfl
  | cons a l ih =>
    cases j with
    | zero => simp at h
    | succ j => exact ih (by simpa using h)

theorem nthD_append_left (d : α) {l₁ : List α} (l₂ : List α) {j : Nat}
    (h : j < l₁.length) : nthD d (l₁ ++ l₂) j = nthD d l₁ j := by
  induction l₁ generalizing j with
  | nil => simp at h
  | cons a l ih =>
    cases j with
    | zero => rfl
    | succ j => simpa using ih (by simpa using h)

theorem nthD_append_right (d : α) {l₁ l₂ : List α} {j : Nat}
    (h : l₁.length ≤ j) : nthD d (l₁ ++ l₂) j = nthD d l₂ (j - l₁.length) := by
  induction l₁ generalizing j with
  | nil => simp
  | cons a l ih =>
    cases j with
    | zero => simp at h
    | succ j => simpa using ih (by simpa using h)

theorem nthD_replicate (d a : α) (n j : Nat) :
    nthD d (List.replicate n a) j = if j < n then a else d := by
  induction n generalizing j with
  | zero => simp
  | succ n ih =>
    cases j with
    | zero => simp [List.replicate]
    | succ j => simp [List.replicate, ih, Nat.succ_lt_succ_iff]

theorem nthD_take (d : α) {l : List α} {k j : Nat} (h : j < k) :
    nthD d (l.take k) j = nthD d l j := by
  induction l generalizing j k with
  | nil => simp
  | cons a l ih =>
    cases k with
    | zero => simp at h
    | succ k =>
      cases j with
      | zero => rfl
      | succ j => simpa using ih (Nat.lt_of_succ_lt_succ h)

theorem nthD_drop (d : α) (l : List α) (k j : Nat) :
    nthD d (l.drop k) j = nthD d l (k + j) := by
  induction l generalizing k with
  | nil => simp
  | cons a l ih =>
    cases k with
    | zero => simp [Nat.zero_add]
    | succ k => simpa [Nat.succ_add] using ih k

@[simp] theorem setNth_length (l : List α) (i : Nat) (a : α) :
    (setNth l i a).length = l.length := by
  induction l generalizing i with
  | nil => rfl
  | cons b l ih => cases i <;> simp [setNth, ih]

theorem nthD_setNth_self (d a : α) {l : List α} {i : Nat} (h : i < l.length) :
    nthD d (setNth l i a) i = a := by
  induction l generalizing i with
  | nil => simp at h
  | cons b l ih =>
    cases i with
    | zero => rfl
    | succ i => simpa using ih (by simpa using h)

theorem nthD_setNth_ne (d a : α) (l : List α) {i j : Nat} (h : j ≠ i) :
    nthD d (setNth l i a) j = nthD d l j := by
  induction l generalizing i j with
  | nil => rfl
  | cons b l ih =>
    cases i with
    | zero => cases j with
      | zero => exact absurd rfl h
      | succ j => rfl
    | succ i =>
      cases j with
      | zero => rfl
      | succ j => simpa using ih (fun hc => h (by rw [hc]))

theorem ext_nthD (d : α) {l₁ l₂ : List α} (hlen : l₁.length = l₂.length)
    (h : ∀ j, nthD d l₁ j = nthD d l₂ j) : l₁ = l₂ := by
  induction l₁ generalizing l₂ with
  | nil => cases l₂ with
    | nil => rfl
    | cons b l₂ => simp at hlen
  | cons a l₁ ih =>
    cases l₂ with
    | nil => simp at hlen
    | cons b l₂ =>
      have h0 := h 0
      simp only [nthD_cons_zero] at h0
      subst h0
      exact congrArg _ (ih (by simpa using hlen) fun j => by simpa using h (j + 1))

theorem setNth_eq_of_length_le {l : List α} {i : Nat} (h : l.length ≤ i) (a : α) :
    setNth l i a = l := by
  induction l generalizing i with
  | nil => rfl
  | cons b l ih =>
    cases i with
    | zero => simp at h
    | succ i => simp [setNth, ih (by simpa using h)]

theorem mapRange_congr {f g : Nat → α} {n : Nat} (h : ∀ r < n, f r = g r) :
    (List.range n).map f = (List.range n).map g := by
  induction n with
  | zero => rfl
  | succ n ih =>
    rw [List.range_succ, List.map_append, List.map_append,
      ih fun r hr => h r (Nat.lt_succ_of_lt hr)]
    simp [h n (Nat.lt_succ_self n)]

theorem nthD_mapRange (d : α) (f : Nat → α) {n r : Nat} (h : r < n) :
    nthD d ((List.range n).map f) r = f r := by
  induction n with
  | zero => simp at h
  | succ n ih =>
    rw [List.range_succ, List.map_append]
    rcases Nat.lt_or_ge r n with hr | hr
    · rw [nthD_append_left _ _ (by simpa using hr)]
      exact ih hr
    · have : r = n := Nat.le_antisymm (Nat.lt_succ_iff.mp h) hr
      subst this
      rw [nthD_append_right _ (by simp)]
      simp

/-! ### Joining uniformly sized pieces

Chunks are built by concatenating equally sized element byte strings; these
lemmas let all chunk-content reasoning happen at the level of the pieces. -/

theorem length_flatten_uniform {e : Nat} {ps : List Bytes}
    (h : ∀ p ∈ ps, p.length = e) : ps.flatten.length = ps.length * e := by
  induction ps with
  | nil => simp
  | cons p ps ih =>
    simp only [List.flatten_cons, List.length_append, List.length_cons]
    rw [h p (by simp), ih fun q hq => h q (by simp [hq]), Nat.succ_mul, Nat.add_comm]

theorem setNth_eq_take_append {l : List α} {i : Nat} (h : i < l.length) (a : α) :
    setNth l i a = l.take i ++ a :: l.drop (i + 1) := by
  induction l generalizing i with
  | nil => simp at h
  | cons b l ih =>
    cases i with
    | zero => simp [setNth]
    | succ i => simp [setNth, ih (by simpa using h)]

theorem flatten_take_uniform {e : Nat} {ps : List Bytes} (h : ∀ p ∈ ps, p.length = e)
    (r : Nat) : ps.flatten.take (r * e) = (ps.take r).flatten := by
  induction ps generalizing r with
  | nil => simp
  | cons p ps ih =>
    cases r with
    | zero => simp
    | succ r =>
      have hp : p.length = e := h p (by simp)
      have hrest : ∀ q ∈ ps, q.length = e := fun q hq => h q (by simp [hq])
      simp only [List.flatten_cons, List.take_succ_cons]
      rw [Nat.succ_mul, Nat.add_comm, List.take_append_eq_append_take, hp,
        List.take_of_length_le (by rw [hp]; exact Nat.le_add_right _ _),
        Nat.add_sub_cancel_left, ih hrest]

theorem flatten_drop_uniform {e : Nat} {ps : List Bytes} (h : ∀ p ∈ ps, p.length = e)
    (r : Nat) : ps.flatten.drop (r * e) = (ps.drop r).flatten := by
  induction ps generalizing r with
  | nil => simp
  | cons p ps ih =>
    cases r with
    | zero => simp
    | succ r =>
      have hp : p.length = e := h p (by simp)
      have hrest : ∀ q ∈ ps, q.length = e := fun q hq => h q (by simp [hq])
      simp only [List.flatten_cons, List.drop_succ_cons]
      rw [Nat.succ_mul, Nat.add_comm, List.drop_append_eq_append_drop, hp,
        List.drop_of_length_le (by rw [hp]; exact Nat.le_add_right _ _),
        Nat.add_sub_cancel_left, ih hrest]
      simp

theorem mem_setNth {l : List α} {i : Nat} {a b : α} (h : b ∈ setNth l i a) :
    b = a ∨ b ∈ l := by
  induction l generalizing i with
  | nil => simp [setNth] at h
  | cons c l ih =>
    cases i with
    | zero =>
      rcases List.mem_cons.mp h with h | h
      · exact Or.inl h
      · exact Or.inr (List.mem_cons_of_mem _ h)
    | succ i =>
      rcases List.mem_cons.mp h with h | h
      · exact Or.inr (h ▸ List.mem_cons_self _ _)
      · rcases ih h with h | h
        · exact Or.inl h
        · exact Or.inr (List.mem_cons_of_mem _ h)

/-- On a chunk that is the concatenation of `e`-sized pieces, a successful
single-element update is exactly `setNth` on the pieces. -/
theorem update_element_in_chunk_eq_setNth {e : Nat} {ps : List Bytes}
    {el : Bytes} (he : 0 < e) (hps : ∀ p ∈ ps, p.length = e)
    (hel : el.length = e) {r : Nat} (hr : r < ps.length) :
    update_element_in_chunk ps.flatten r el = .ok (setNth ps r el).flatten := by
  have hlen : ps.flatten.length = ps.length * e := length_flatten_uniform hps
  have hel0 : el.length ≠ 0 := by omega
  have hmod : ps.flatten.length % el.length = 0 := by
    rw [hlen, hel, Nat.mul_mod_left]
  have hdiv : ps.flatten.length / el.length = ps.length := by
    rw [hlen, hel, Nat.mul_div_cancel _ he]
  simp only [update_element_in_chunk, if_neg hel0, hmod, ne_eq,
    not_true_eq_false, not_false_eq_true, if_neg, if_pos, hdiv, hr,
    not_lt]
  rw [setNth_eq_take_append hr, List.flatten_append, List.flatten_cons]
  rw [hel, flatten_take_uniform hps]
  have : r * e + e = (r + 1) * e := by ring
  rw [this, flatten_drop_uniform hps, List.append_assoc]

/-- Folding `update_elements_in_chunk` over in-range slot updates is `setNth`
folded over the pieces. -/
theorem update_elements_in_chunk_eq_foldl {e : Nat} (he : 0 < e)
    {ps : List Bytes} (hps : ∀ p ∈ ps, p.length = e)
    {ups : List (Nat × Bytes)}
    (hups : ∀ pr ∈ ups, pr.2.length = e ∧ pr.1 < ps.length) :
    update_elements_in_chunk ps.flatten ups =
      .ok (ups.foldl (fun acc pr => setNth acc pr.1 pr.2) ps).flatten := by
  induction ups generalizing ps with
  | nil => rfl
  | cons pr ups ih =>
    have h1 := hups pr (by simp)
    have step := update_element_in_chunk_eq_setNth he hps h1.1 h1.2
    have hps' : ∀ p ∈ setNth ps pr.1 pr.2, p.length = e := by
      intro p hp
      rcases mem_setNth hp with h | h
      · rw [h, h1.1]
      · exact hps p h
    have hups' : ∀ q ∈ ups, q.2.length = e ∧ q.1 < (setNth ps pr.1 pr.2).length := by
      intro q hq
      refine ⟨(hups q (by simp [hq])).1, ?_⟩
      rw [setNth_length]
      exact (hups q (by simp [hq])).2
    calc update_elements_in_chunk ps.flatten (pr :: ups)
        = update_elements_in_chunk (setNth ps pr.1 pr.2).flatten ups := by
          simp only [update_elements_in_chunk, List.foldlM_cons, step]
          rfl
      _ = _ := by rw [ih hps' hups']; simp

theorem update_element_in_chunk_ok_region {chunk element : Bytes} {index : Nat}
    (hc : chunk.length = CHUNK_SIZE) (h0 : element.length ≠ 0)
    (hm : CHUNK_SIZE % element.length = 0)
    (hi : index < CHUNK_SIZE / element.length) :
    ∃ res, update_element_in_chunk chunk index element = .ok res ∧
      res.length = CHUNK_SIZE ∧
      (∀ j, index * element.length ≤ j →
        j < index * element.length + element.length →
        nthD 0 res j = nthD 0 element (j - index * element.length)) ∧
      (∀ j, ¬ (index * element.length ≤ j ∧
          j < index * element.length + element.length) →
        nthD 0 res j = nthD 0 chunk j) := by
  have hdvd : element.length ∣ CHUNK_SIZE := Nat.dvd_of_mod_eq_zero hm
  have hub : index * element.length + element.length ≤ CHUNK_SIZE := by
    have h1 : index + 1 ≤ CHUNK_SIZE / element.length := hi
    have h2 : (index + 1) * element.length ≤
        (CHUNK_SIZE / element.length) * element.length :=
      Nat.mul_le_mul_right _ h1
    rw [Nat.div_mul_cancel hdvd] at h2
    calc index * element.length + element.length
        = (index + 1) * element.length := by ring
      _ ≤ CHUNK_SIZE := h2
  have htk : (chunk.take (index * element.length)).length =
      index * element.length := by
    rw [List.length_take, hc]
    exact Nat.min_eq_left (by omega)
  refine ⟨chunk.take (index * element.length) ++ element ++
    chunk.drop (index * element.length + element.length), ?_, ?_, ?_, ?_⟩
  · simp only [update_element_in_chunk, hc]
    rw [if_neg h0, if_neg (by simp [hm]), if_neg (by simpa using hi)]
  · simp only [List.length_append, htk, List.length_drop, hc]
    omega
  · intro j hj1 hj2
    rw [nthD_append_left _ _ (by simp [htk]; omega),
      nthD_append_right _ (by omega : (chunk.take (index * element.length)).length ≤ j)]
    rw [htk]
  · intro j hj
    rcases Nat.lt_or_ge j (index * element.length) with h | h
    · rw [nthD_append_left _ _ (by simp [htk]; omega),
        nthD_append_left _ _ (by omega : j < (chunk.take (index * element.length)).length),
        nthD_take _ (by omega)]
    · have h' : index * element.length + element.length ≤ j := by
        rcases Nat.lt_or_ge j (index * element.length + element.length) with h2 | h2
        · exact absurd ⟨h, h2⟩ hj
        · exact h2
      rw [nthD_append_right _ (by simp [htk]; omega), nthD_drop]
      congr 1
      simp only [htk, List.length_append]
      omega

/-- **C6.** `update_element_in_chunk(chunk, index, element)` fails with
`InvalidElementSize` if and only if the element's byte length is zero or does
not divide the chunk size; fails with `IndexOutOfRange` if and only if (for a
valid element size) `index` is outside `[0, CHUNK_SIZE / element_size)`; and
otherwise returns the chunk with exactly the `index`-th `element_size`-byte
slot replaced by `element`, all other bytes unchanged. -/
theorem C6_update_element_in_chunk_spec (chunk : Bytes) (index : Nat)
    (element : Bytes) (hc : chunk.length = CHUNK_SIZE) :
    (update_element_in_chunk chunk index element = .error .invalidElementSize ↔
      element.length = 0 ∨ CHUNK_SIZE % element.length ≠ 0) ∧
    (update_element_in_chunk chunk index element = .error .indexOutOfRange ↔
      element.length ≠ 0 ∧ CHUNK_SIZE % element.length = 0 ∧
        ¬ index < CHUNK_SIZE / element.length) ∧
    (element.length ≠ 0 → CHUNK_SIZE % element.length = 0 →
      index < CHUNK_SIZE / element.length →
      ∃ res, update_element_in_chunk chunk index element = .ok res ∧
        res.length = CHUNK_SIZE ∧
        (∀ j, index * element.length ≤ j →
          j < index * element.length + element.length →
          nthD 0 res j = nthD 0 element (j - index * element.length)) ∧
        (∀ j, ¬ (index * element.length ≤ j ∧
            j < index * element.length + element.length) →
          nthD 0 res j = nthD 0 chunk j)) := by
  refine ⟨?_, ?_, fun h0 hm hi => update_element_in_chunk_ok_region hc h0 hm hi⟩
  · by_cases h0 : element.length = 0
    · simp [update_element_in_chunk, h0]
    · by_cases hm : CHUNK_SIZE % element.length = 0
      · by_cases hi : index < CHUNK_SIZE / element.length
        · rcases update_element_in_chunk_ok_region hc h0 hm hi with ⟨res, hres, -⟩
          simp [hres, h0, hm]
        · simp [update_element_in_chunk, h0, hc, hm, hi]
      · simp [update_element_in_chunk, h0, hc, hm]
  · by_cases h0 : element.length = 0
    · simp [update_element_in_chunk, h0]
    · by_cases hm : CHUNK_SIZE % element.length = 0
      · by_cases hi : index < CHUNK_SIZE / element.length
        · rcases update_element_in_chunk_ok_region hc h0 hm hi with ⟨res, hres, -⟩
          simp [hres, h0, hm, hi]
        · simp [update_element_in_chunk, h0, hc, hm, hi]
      · simp [update_element_in_chunk, h0, hc, hm]

theorem C6_update_element_in_chunk_spec_witness :
    (List.replicate 32 0 : Bytes).length = CHUNK_SIZE ∧
    ((update_element_in_chunk (List.replicate 32 0) 1 (List.replicate 16 5) =
        .error .invalidElementSize ↔
      (List.replicate 16 5 : Bytes).length = 0 ∨
        CHUNK_SIZE % (List.replicate 16 5 : Bytes).length ≠ 0) ∧
    (update_element_in_chunk (List.replicate 32 0) 1 (List.replicate 16 5) =
        .error .indexOutOfRange ↔
      (List.replicate 16 5 : Bytes).length ≠ 0 ∧
        CHUNK_SIZE % (List.replicate 16 5 : Bytes).length = 0 ∧
        ¬ 1 < CHUNK_SIZE / (List.replicate 16 5 : Bytes).length) ∧
    ((List.replicate 16 5 : Bytes).length ≠ 0 →
      CHUNK_SIZE % (List.replicate 16 5 : Bytes).length = 0 →
      1 < CHUNK_SIZE / (List.replicate 16 5 : Bytes).length →
      ∃ res, update_element_in_chunk (List.replicate 32 0) 1
          (List.replicate 16 5) = .ok res ∧
        res.length = CHUNK_SIZE ∧
        (∀ j, 1 * (List.replicate 16 5 : Bytes).length ≤ j →
          j < 1 * (List.replicate 16 5 : Bytes).length +
            (List.replicate 16 5 : Bytes).length →
          nthD 0 res j = nthD 0 (List.replicate 16 5)
            (j - 1 * (List.replicate 16 5 : Bytes).length)) ∧
        (∀ j, ¬ (1 * (List.replicate 16 5 : Bytes).length ≤ j ∧
            j < 1 * (List.replicate 16 5 : Bytes).length +
              (List.replicate 16 5 : Bytes).length) →
          nthD 0 res j = nthD 0 (List.replicate 32 0) j))) :=
  ⟨by decide,
    C6_update_element_in_chunk_spec (List.replicate 32 0) 1 (List.replicate 16 5)
      (by decide)⟩

theorem is_dirty_false_iff (ev : Evolver α) :
    ev.is_dirty = false ↔ ev.updated_elements = [] ∧ ev.appended_elements = [] := by
  simp [Evolver.is_dirty, List.isEmpty_iff]

/-- A dirty `persistent` run, written in terms of the named pieces. -/
theorem persistent_dirty_eq {ev : Evolver α} (hd : ev.is_dirty = true) :
    ev.persistent = (do
      let updated_chunks ← get_updated_chunks (evUpdatedBytes ev)
        (evAppendedBytes ev) ev.original_structure.hash_tree.chunks
        ev.original_structure.elements.length (evNumPadding ev)
      let tree1 ← ev.original_structure.hash_tree.mset updated_chunks
      let hash_tree ← tree1.extend
        (get_appended_chunks (evAppendedBytes ev) (evNumPadding ev))
      pure ⟨applyUpdates ev.original_structure.elements ev.updated_elements
          ++ ev.appended_elements,
        hash_tree, ev.original_structure.sedes⟩) := by
  unfold Evolver.persistent
  rw [if_neg (by simp [hd])]
  rfl

theorem except_bind_error {γ δ : Type} (e : Err) (f : γ → Except Err δ) :
    (Except.error e : Except Err γ) >>= f = .error e := rfl

theorem except_bind_ok {γ δ : Type} (a : γ) (f : γ → Except Err δ) :
    (Except.ok a : Except Err γ) >>= f = f a := rfl

theorem except_map_error {γ δ : Type} (g : γ → δ) (e : Err) :
    g <$> (Except.error e : Except Err γ) = .error e := rfl

theorem except_map_ok {γ δ : Type} (g : γ → δ) (a : γ) :
    g <$> (Except.ok a : Except Err γ) = .ok (g a) := rfl

theorem persistent_ok_elements {ev : Evolver α} {t : HashableStructure α}
    (h : ev.persistent = .ok t) :
    t.elements = applyUpdates ev.original_structure.elements ev.updated_elements
      ++ ev.appended_elements := by
  cases hd : ev.is_dirty with
  | false =>
    rcases (is_dirty_false_iff ev).mp hd with ⟨hu, ha⟩
    unfold Evolver.persistent at h
    rw [if_pos (by simp [hd])] at h
    cases h
    simp [applyUpdates, hu, ha]
  | true =>
    rw [persistent_dirty_eq hd] at h
    cases huc : get_updated_chunks (evUpdatedBytes ev) (evAppendedBytes ev)
        ev.original_structure.hash_tree.chunks
        ev.original_structure.elements.length (evNumPadding ev) with
    | error e =>
      rw [huc, except_bind_error] at h
      exact Except.noConfusion h
    | ok uc =>
      rw [huc, except_bind_ok] at h
      cases hm : ev.original_structure.hash_tree.mset uc with
      | error e =>
        rw [hm, except_bind_error] at h
        exact Except.noConfusion h
      | ok t1 =>
        rw [hm, except_bind_ok] at h
        cases he : t1.extend
            (get_appended_chunks (evAppendedBytes ev) (evNumPadding ev)) with
        | error e =>
          rw [he, except_bind_error] at h
          exact Except.noConfusion h
        | ok ht =>
          rw [he, except_bind_ok] at h
          rw [show ∀ x : HashableStructure α, (pure x : Except Err _) = .ok x
            from fun _ => rfl] at h
          cases h
          rfl

theorem persistent_ok_sedes {ev : Evolver α} {t : HashableStructure α}
    (h : ev.persistent = .ok t) : t.sedes = ev.original_structure.sedes := by
  cases hd : ev.is_dirty with
  | false =>
    unfold Evolver.persistent at h
    rw [if_pos (by simp [hd])] at h
    cases h
    rfl
  | true =>
    rw [persistent_dirty_eq hd] at h
    cases huc : get_updated_chunks (evUpdatedBytes ev) (evAppendedBytes ev)
        ev.original_structure.hash_tree.chunks
        ev.original_structure.elements.length (evNumPadding ev) with
    | error e =>
      rw [huc, except_bind_error] at h
      exact Except.noConfusion h
    | ok uc =>
      rw [huc, except_bind_ok] at h
      cases hm : ev.original_structure.hash_tree.mset uc with
      | error e =>
        rw [hm, except_bind_error] at h
        exact Except.noConfusion h
      | ok t1 =>
        rw [hm, except_bind_ok] at h
        cases he : t1.extend
            (get_appended_chunks (evAppendedBytes ev) (evNumPadding ev)) with
        | error e =>
          rw [he, except_bind_error] at h
          exact Except.noConfusion h
        | ok ht =>
          rw [he, except_bind_ok] at h
          rw [show ∀ x : HashableStructure α, (pure x : Except Err _) = .ok x
            from fun _ => rfl] at h
          cases h
          rfl

@[simp] theorem applyUpdates_nil (base : List α) : applyUpdates base [] = base :=
  rfl

theorem applyUpdates_cons (base : List α) (p : Nat × α) (upd : List (Nat × α)) :
    applyUpdates base (p :: upd) = applyUpdates (setNth base p.1 p.2) upd := rfl

theorem applyUpdates_length (base : List α) (upd : List (Nat × α)) :
    (applyUpdates base upd).length = base.length := by
  induction upd generalizing base with
  | nil => rfl
  | cons p upd ih => rw [applyUpdates_cons, ih, setNth_length]

/-! ### Dictionary lemmas -/

@[simp] theorem alookup_nil (k : Nat) : alookup k ([] : List (Nat × α)) = none :=
  rfl

theorem alookup_cons (k k' : Nat) (v : α) (l : List (Nat × α)) :
    alookup k ((k', v) :: l) = if k = k' then some v else alookup k l := rfl

theorem alookup_eq_none_of_not_mem {k : Nat} {l : List (Nat × α)}
    (h : k ∉ l.map Prod.fst) : alookup k l = none := by
  induction l with
  | nil => rfl
  | cons p l ih =>
    simp only [List.map_cons, List.mem_cons] at h
    push_neg at h
    cases p with
    | mk k' v => simp only [alookup_cons, if_neg h.1]; exact ih h.2

theorem alookup_dictSet_self (d : List (Nat × α)) (k : Nat) (v : α) :
    alookup k (dictSet d k v) = some v := by
  induction d with
  | nil => simp [dictSet, alookup_cons]
  | cons p d ih =>
    cases p with
    | mk k' v' =>
      by_cases h : k = k'
      · simp [dictSet, if_pos h, alookup_cons, h]
      · simp [dictSet, if_neg h, alookup_cons, if_neg h, ih]

theorem alookup_dictSet_ne (d : List (Nat × α)) {k k' : Nat} (h : k' ≠ k)
    (v : α) : alookup k' (dictSet d k v) = alookup k' d := by
  induction d with
  | nil => simp [dictSet, alookup_cons, if_neg h]
  | cons p d ih =>
    cases p with
    | mk k'' v'' =>
      by_cases h2 : k = k''
      · subst h2
        simp [dictSet, alookup_cons, if_neg h]
      · simp only [dictSet, if_neg h2, alookup_cons]
        by_cases h3 : k' = k''
        · simp [h3]
        · simp [if_neg h3, ih]

theorem mem_dictSet {d : List (Nat × α)} {k : Nat} {v : α} {p : Nat × α}
    (h : p ∈ dictSet d k v) : p = (k, v) ∨ p ∈ d := by
  induction d with
  | nil => simpa [dictSet] using h
  | cons q d ih =>
    cases q with
    | mk k' v' =>
      by_cases h2 : k = k'
      · subst h2
        simp only [dictSet, if_pos] at h
        rcases List.mem_cons.mp h with h3 | h3
        · exact Or.inl h3
        · exact Or.inr (List.mem_cons_of_mem _ h3)
      · simp only [dictSet, if_neg h2] at h
        rcases List.mem_cons.mp h with h3 | h3
        · exact Or.inr (by simp [h3])
        · rcases ih h3 with h4 | h4
          · exact Or.inl h4
          · exact Or.inr (List.mem_cons_of_mem _ h4)

theorem keys_dictSet (d : List (Nat × α)) (k : Nat) (v : α) :
    (dictSet d k v).map Prod.fst =
      if k ∈ d.map Prod.fst then d.map Prod.fst else d.map Prod.fst ++ [k] := by
  induction d with
  | nil => simp [dictSet]
  | cons p d ih =>
    cases p with
    | mk k' v' =>
      by_cases h : k = k'
      · subst h
        simp [dictSet]
      · simp only [dictSet, if_neg h, List.map_cons, ih, List.mem_cons]
        by_cases h2 : k ∈ d.map Prod.fst
        · simp [h2, h]
        · simp only [h2, or_false, if_neg h2]
          simp [h]

theorem nodup_keys_dictSet {d : List (Nat × α)} (k : Nat) (v : α)
    (h : (d.map Prod.fst).Nodup) : ((dictSet d k v).map Prod.fst).Nodup := by
  rw [keys_dictSet]
  by_cases h2 : k ∈ d.map Prod.fst
  · simpa [h2] using h
  · rw [if_neg h2]
    simpa [List.nodup_append, h2] using h

theorem get?_eq_some_nthD (d : α) {l : List α} {i : Nat} (h : i < l.length) :
    l.get? i = some (nthD d l i) := by
  induction l generalizing i with
  | nil => simp at h
  | cons a l ih =>
    cases i with
    | zero => rfl
    | succ i => simpa using ih (by simpa using h)

theorem get?_eq_none_of_le {l : List α} {i : Nat} (h : l.length ≤ i) :
    l.get? i = none := by
  induction l generalizing i with
  | nil => rfl
  | cons a l ih =>
    cases i with
    | zero => simp at h
    | succ i => simpa using ih (by simpa using h)

theorem lookupD_some {d : α} {k : Nat} {l : List (Nat × α)} {v : α}
    (h : alookup k l = some v) : lookupD d k l = v := by
  unfold lookupD
  rw [h]

theorem lookupD_none {d : α} {k : Nat} {l : List (Nat × α)}
    (h : alookup k l = none) : lookupD d k l = d := by
  unfold lookupD
  rw [h]

theorem lookupD_cons (d : α) (j k : Nat) (v : α) (l : List (Nat × α)) :
    lookupD d j ((k, v) :: l) = if j = k then v else lookupD d j l := by
  unfold lookupD
  rw [alookup_cons]
  by_cases h : j = k
  · rw [if_pos h, if_pos h]
  · rw [if_neg h, if_neg h]

theorem lookupD_congr_alookup (d : α) {k k' : Nat} {l l' : List (Nat × α)}
    (h : alookup k l = alookup k' l') : lookupD d k l = lookupD d k' l' := by
  unfold lookupD
  rw [h]

/-- Pointwise value of a batch of in-place updates with distinct keys. -/
theorem nthD_applyUpdates (d : α) {base : List α} {upd : List (Nat × α)}
    (hnd : (upd.map Prod.fst).Nodup)
    (hk : ∀ p ∈ upd, p.1 < base.length) (j : Nat) :
    nthD d (applyUpdates base upd) j = lookupD (nthD d base j) j upd := by
  induction upd generalizing base with
  | nil => simp [lookupD]
  | cons p upd ih =>
    cases p with
    | mk k v =>
      rw [applyUpdates_cons]
      simp only [List.map_cons, List.nodup_cons] at hnd
      have hk' : ∀ q ∈ upd, q.1 < (setNth base k v).length := by
        intro q hq
        rw [setNth_length]
        exact hk q (List.mem_cons_of_mem _ hq)
      rw [ih hnd.2 hk', lookupD_cons]
      by_cases hj : j = k
      · subst hj
        rw [if_pos rfl, lookupD_none (alookup_eq_none_of_not_mem hnd.1)]
        exact nthD_setNth_self d v (hk (j, v) (by simp))
      · rw [if_neg hj]
        cases halk : alookup j upd with
        | some w => rw [lookupD_some halk, lookupD_some halk]
        | none =>
          rw [lookupD_none halk, lookupD_none halk]
          exact nthD_setNth_ne d v base hj

/-! ### C5: list length mixing -/

theorem natToBytesLE_eq (n k : Nat) :
    natToBytesLE n k = (List.range n).map fun i => k / 256 ^ i % 256 := by
  induction n generalizing k with
  | zero => rfl
  | succ n ih =>
    rw [natToBytesLE, ih (k / 256), List.range_succ_eq_map, List.map_cons,
      List.map_map]
    refine congrArg₂ _ (by simp) (mapRange_congr fun r hr => ?_)
    simp only [Function.comp]
    rw [Nat.div_div_eq_div_mul, pow_succ, Nat.mul_comm]

/-- **C5.** For every `HashableList` `l`, `l.root` equals
`H(l.raw_root ‖ le256(len(l)))`: the hash of the raw Merkle root concatenated
with the 32-byte little-endian encoding of the current element count (`H`
consumes the two 32-byte halves of its 64-byte input). -/
theorem C5_list_root_mixes_length (H : Bytes → Bytes → Bytes)
    (s : HashableStructure α) :
    listRoot H s =
      H (HashTree.root H s.hash_tree)
        ((List.range 32).map fun i => s.elements.length / 256 ^ i % 256) := by
  rw [listRoot, mix_in_length, natToBytesLE_eq]

/-! ### C10: `mset` with no arguments is the identity -/

/-- **C10.** `s.mset()` with zero arguments returns `s` itself: a fresh
evolver records nothing, is not dirty, and `persistent()` on a non-dirty
evolver returns the original structure; at the heap level no new object is
allocated and the very same reference comes back. -/
theorem C10_mset_empty_identity (heap : List (HashableStructure α))
    (ref : Nat) (s : HashableStructure α) (href : heap.get? ref = some s) :
    runMset heap ref [] = .ok (heap, ref) ∧
    HashableStructure.mset s [] = .ok s ∧
    Evolver.is_dirty s.evolver = false := by
  refine ⟨?_, rfl, rfl⟩
  unfold runMset runEvolverCommit
  rw [href]
  rfl

theorem C10_mset_empty_identity_witness :
    ([oneElemS].get? 0 = some oneElemS) ∧
    (runMset [oneElemS] 0 [] = .ok ([oneElemS], 0) ∧
      HashableStructure.mset oneElemS [] = .ok oneElemS ∧
      Evolver.is_dirty (HashableStructure.evolver oneElemS) = false) :=
  ⟨rfl, C10_mset_empty_identity [oneElemS] 0 oneElemS rfl⟩

/-! ### C3: evolver reads -/

/-- **C3 (amended).** `e.get(i)` returns the pending updated element at `i`
if one was recorded, else the original structure's element at `i` when `i` is
within the range of the original structure; any other (nonnegative) read —
including reads in the pending appended range — fails with `IndexOutOfRange`,
because `__getitem__` falls through to the original structure and
`ResizableHashableStructureEvolver` does not override it to serve appended
elements. -/
theorem C3_evolver_get (ev : Evolver α) (i : Nat) :
    (∀ v, alookup i ev.updated_elements = some v → ev.get i = .ok v) ∧
    (alookup i ev.updated_elements = none →
      ∀ x, ev.original_structure.elements.get? i = some x → ev.get i = .ok x) ∧
    (alookup i ev.updated_elements = none →
      ev.original_structure.elements.length ≤ i →
      ev.get i = .error .indexOutOfRange) := by
  refine ⟨?_, ?_, ?_⟩
  · intro v hv
    unfold Evolver.get
    rw [hv]
  · intro hnone x hx
    unfold Evolver.get
    rw [hnone, hx]
  · intro hnone hlen
    unfold Evolver.get
    rw [hnone, get?_eq_none_of_le hlen]

theorem C3_evolver_get_witness :
    Evolver.get (HashableStructure.evolver oneElemS) 0 = .ok 5 :=
  (C3_evolver_get (HashableStructure.evolver oneElemS) 0).2.1 rfl 5 rfl

/-- **C3, counterexample.** The claim says a read at `i = len(s) + 0` with one
pending appended element returns that element; in the code the read falls
through to the original structure and fails with `IndexOutOfRange`. -/
theorem C3_counterexample :
    Evolver.get (Evolver.append (HashableStructure.evolver oneElemS) 6) 1 =
      .error .indexOutOfRange ∧
    Evolver.get (Evolver.append (HashableStructure.evolver oneElemS) 6) 1 ≠
      .ok 6 :=
  ⟨rfl, fun hc => Except.noConfusion
    (show (Except.error Err.indexOutOfRange : Except Err Nat) = .ok 6 from hc)⟩

/-! ### C9: the evolver's length ignores staged appends -/

theorem applyEdit_original {ev0 ev : Evolver α} {op : EditOp α}
    (h : ev0.applyEdit op = .ok ev) :
    ev.original_structure = ev0.original_structure := by
  cases op with
  | set i v =>
    simp only [Evolver.applyEdit, Evolver.set] at h
    split at h
    · cases h; rfl
    · exact Except.noConfusion h
  | append v => cases h; rfl
  | extend vs => cases h; rfl

theorem applyEdits_original {E : List (EditOp α)} :
    ∀ {ev0 ev : Evolver α}, ev0.applyEdits E = .ok ev →
      ev.original_structure = ev0.original_structure := by
  induction E with
  | nil =>
    intro ev0 ev h
    cases h
    rfl
  | cons op E ih =>
    intro ev0 ev h
    unfold Evolver.applyEdits at h
    rw [List.foldlM_cons] at h
    cases hop : ev0.applyEdit op with
    | error e => rw [hop, except_bind_error] at h; exact Except.noConfusion h
    | ok ev1 =>
      rw [hop, except_bind_ok] at h
      exact (ih h).trans (applyEdit_original hop)

/-- **C9.** For every evolver reached from `s.evolver()` by any sequence of
edits (including appends and extends), `len(evolver)` equals `len(s)`: staged
appends do not count toward the evolver's length, and therefore do not widen
the range of indices accepted by `set`. -/
theorem C9_evolver_length (s : HashableStructure α) (E : List (EditOp α))
    (ev : Evolver α) (h : (s.evolver).applyEdits E = .ok ev) :
    ev.length = s.elements.length ∧
    (∀ i v, (∃ ev', ev.set i v = .ok ev') ↔ i < s.elements.length) := by
  have horig : ev.original_structure = s := applyEdits_original h
  constructor
  · rw [Evolver.length, horig]
  · intro i v
    unfold Evolver.set
    rw [horig]
    by_cases hi : i < s.elements.length
    · simp [hi]
    · simp [hi]

theorem C9_evolver_length_witness :
    (⟨oneElemS, [], [6]⟩ : Evolver Nat).length = oneElemS.elements.length ∧
    (∀ i v, (∃ ev', (⟨oneElemS, [], [6]⟩ : Evolver Nat).set i v = .ok ev') ↔
      i < oneElemS.elements.length) :=
  C9_evolver_length oneElemS [.append 6] ⟨oneElemS, [], [6]⟩ rfl

/-! ### C4: ordering guarantees inside one evolver -/

/-- **C4 (amended).** Within a single evolver, `set(i, v)` then `set(i, w)`
results in `w` at position `i`, both for evolver reads and in the materialized
structure; but `append(v)` followed by `set(len(original) + 0, w)` fails with
`IndexOutOfRange`, because the index range accepted by `set` stays bounded by
the original structure's length while appends are pending. -/
theorem evolver_set_ok {ev ev' : Evolver α} {i : Nat} {v : α}
    (h : ev.set i v = .ok ev') :
    i < ev.original_structure.elements.length ∧
    ev' = { ev with updated_elements := dictSet ev.updated_elements i v } := by
  unfold Evolver.set at h
  by_cases hi : i < ev.original_structure.elements.length
  · rw [if_pos hi] at h
    cases h
    exact ⟨hi, rfl⟩
  · rw [if_neg hi] at h
    exact Except.noConfusion h

theorem C4_set_ordering (i : Nat) (v w : α) :
    (∀ ev ev1 ev2 : Evolver α,
      (ev.updated_elements.map Prod.fst).Nodup →
      (∀ p ∈ ev.updated_elements,
        p.1 < ev.original_structure.elements.length) →
      ev.set i v = .ok ev1 → ev1.set i w = .ok ev2 →
      ev2.get i = .ok w ∧
      ∀ t, ev2.persistent = .ok t → t.elements.get? i = some w) ∧
    (∀ (ev : Evolver α) (u : α),
      Evolver.set (ev.append u) (ev.length + 0) w = .error .indexOutOfRange) := by
  constructor
  · intro ev ev1 ev2 hnd hkeys h1 h2
    obtain ⟨hi, rfl⟩ := evolver_set_ok h1
    obtain ⟨-, rfl⟩ := evolver_set_ok h2
    have hlk : alookup i (dictSet (dictSet ev.updated_elements i v) i w) =
        some w := alookup_dictSet_self _ i w
    constructor
    · unfold Evolver.get
      rw [hlk]
    · intro t ht
      have helems := persistent_ok_elements ht
      have hnd2 : ((dictSet (dictSet ev.updated_elements i v) i w).map
          Prod.fst).Nodup :=
        nodup_keys_dictSet i w (nodup_keys_dictSet i v hnd)
      have hkeys2 : ∀ p ∈ dictSet (dictSet ev.updated_elements i v) i w,
          p.1 < ev.original_structure.elements.length := by
        intro p hp
        rcases mem_dictSet hp with hp | hp
        · rw [hp]; exact hi
        · rcases mem_dictSet hp with hp | hp
          · rw [hp]; exact hi
          · exact hkeys p hp
      rw [helems]
      have hlen : i < (applyUpdates ev.original_structure.elements
          (dictSet (dictSet ev.updated_elements i v) i w)).length := by
        rw [applyUpdates_length]
        exact hi
      rw [List.get?_append hlen, get?_eq_some_nthD w hlen,
        nthD_applyUpdates w hnd2 hkeys2, lookupD_some hlk]
  · intro ev u
    simp [Evolver.set, Evolver.append, Evolver.length]

theorem C4_set_ordering_witness :
    Evolver.get (⟨oneElemS, [(0, 3)], []⟩ : Evolver Nat) 0 = .ok 3 ∧
    (⟨oneElemS, [(0, 3)], []⟩ : Evolver Nat).persistent =
      .ok ⟨[3], ⟨[List.replicate 32 3], 4⟩, sedes32⟩ ∧
    (⟨[3], ⟨[List.replicate 32 3], 4⟩, sedes32⟩ :
      HashableStructure Nat).elements.get? 0 = some 3 := by
  have h := (C4_set_ordering 0 2 3).1 (HashableStructure.evolver oneElemS)
    ⟨oneElemS, [(0, 2)], []⟩ ⟨oneElemS, [(0, 3)], []⟩
    (by simp [HashableStructure.evolver])
    (by simp [HashableStructure.evolver]) rfl rfl
  exact ⟨h.1, rfl, h.2 _ rfl⟩

/-- **C4, counterexample.** After `append(6)` on an evolver over a one-element
structure, `set(len(original) + 0, 7)` does not succeed: it fails with
`IndexOutOfRange`. -/
theorem C4_counterexample :
    Evolver.set (Evolver.append (HashableStructure.evolver oneElemS) 6)
      (oneElemS.elements.length + 0) 7 = .error .indexOutOfRange ∧
    ¬ ∃ ev', Evolver.set (Evolver.append (HashableStructure.evolver oneElemS) 6)
      (oneElemS.elements.length + 0) 7 = .ok ev' :=
  ⟨rfl, fun ⟨ev', hc⟩ => Except.noConfusion
    (show (Except.error Err.indexOutOfRange : Except Err (Evolver Nat)) =
      .ok ev' from hc)⟩

/-! ### C8: persistence of predecessors -/

theorem runEvolverCommit_some {heap : List (HashableStructure α)} {ref : Nat}
    {stage : Evolver α → Except Err (Evolver α)} {s : HashableStructure α}
    (hs : heap.get? ref = some s) :
    runEvolverCommit heap ref stage = (do
      let ev ← stage s.evolver
      if ¬ ev.is_dirty then pure (heap, ref)
      else do
        let t ← ev.persistent
        pure (heap ++ [t], heap.length)) := by
  unfold runEvolverCommit
  rw [hs]

theorem runEvolverCommit_none {heap : List (HashableStructure α)} {ref : Nat}
    {stage : Evolver α → Except Err (Evolver α)}
    (hs : heap.get? ref = none) :
    runEvolverCommit heap ref stage = .error .indexOutOfRange := by
  unfold runEvolverCommit
  rw [hs]

theorem runEvolverCommit_frame {heap : List (HashableStructure α)} {ref : Nat}
    {stage : Evolver α → Except Err (Evolver α)}
    {out : List (HashableStructure α) × Nat}
    (h : runEvolverCommit heap ref stage = .ok out) :
    ∀ q, q < heap.length → out.1.get? q = heap.get? q := by
  intro q hq
  cases hs : heap.get? ref with
  | none => rw [runEvolverCommit_none hs] at h; exact Except.noConfusion h
  | some s =>
    rw [runEvolverCommit_some hs] at h
    cases hst : stage s.evolver with
    | error e => rw [hst, except_bind_error] at h; exact Except.noConfusion h
    | ok ev =>
      rw [hst, except_bind_ok] at h
      split at h
      · rw [show (pure (heap, ref) : Except Err _) = .ok (heap, ref) from rfl]
          at h
        cases h
        rfl
      · cases hp : ev.persistent with
        | error e =>
          rw [hp, except_bind_error] at h; exact Except.noConfusion h
        | ok t =>
          rw [hp, except_bind_ok,
            show (pure (heap ++ [t], heap.length) : Except Err _) =
              .ok (heap ++ [t], heap.length) from rfl] at h
          cases h
          exact List.get?_append hq

/-- **C8.** Every derived structure leaves its predecessor unchanged: at the
heap level, `s.set(i, v)` (via `mset`) and any evolver `persistent()` rooted
at `s` only allocate a fresh object, so every pre-existing heap slot — in
particular `s` itself, hence `s.root`, `s.chunks` and every `s[j]` — is the
same object as before the operation. -/
theorem C8_persistence_frame (heap : List (HashableStructure α)) (ref i : Nat)
    (v : α) (E : List (EditOp α)) :
    (∀ out, runMset heap ref [(i, v)] = .ok out →
      ∀ q, q < heap.length → out.1.get? q = heap.get? q) ∧
    (∀ out, runEdits heap ref E = .ok out →
      ∀ q, q < heap.length → out.1.get? q = heap.get? q) :=
  ⟨fun _ h => runEvolverCommit_frame h, fun _ h => runEvolverCommit_frame h⟩

theorem C8_persistence_frame_witness :
    runMset [oneElemS] 0 [(0, 5)] = .ok ([oneElemS, oneElemS], 1) ∧
    ([oneElemS, oneElemS] : List (HashableStructure Nat)).get? 0 =
      [oneElemS].get? 0 :=
  ⟨rfl, (C8_persistence_frame [oneElemS] 0 0 5 []).1 ([oneElemS, oneElemS], 1)
    rfl 0 (by decide)⟩

/-! ### C2: `from_iterable` against the from-scratch pipeline -/

theorem ifEmpty_not_empty (C : List Bytes) :
    (if C.isEmpty then [ZERO_BYTES32] else C).isEmpty = false := by
  cases C <;> simp

theorem compute_ok_of_le {chunks : List Bytes} {cc : Nat}
    (hne : chunks.isEmpty = false) (hle : chunks.length ≤ cc) :
    HashTree.compute chunks cc = .ok ⟨chunks, cc⟩ := by
  unfold HashTree.compute
  rw [hne]
  simp only [Bool.false_eq_true, if_false]
  rw [if_neg (Nat.not_lt.mpr hle)]

theorem from_iterable_ok {iterable : List α} {sedes : Sedes α}
    (hcap : (if (get_appended_chunks (serializedElements sedes iterable)
        0).isEmpty then [ZERO_BYTES32]
      else get_appended_chunks (serializedElements sedes iterable) 0).length ≤
      sedes.chunk_count) :
    from_iterable iterable sedes = .ok ⟨iterable,
      ⟨if (get_appended_chunks (serializedElements sedes iterable) 0).isEmpty
          then [ZERO_BYTES32]
          else get_appended_chunks (serializedElements sedes iterable) 0,
        sedes.chunk_count⟩, sedes⟩ := by
  simp only [from_iterable]
  rw [compute_ok_of_le (ifEmpty_not_empty _) hcap, except_bind_ok]
  rfl

/-- **C2.** For every element list and sedes with enough capacity,
`from_iterable(iterable, sedes)` succeeds and returns a structure whose root
equals the root recomputed from scratch: each element serialized to its leaf
bytes, the leaves packed into chunks via `get_appended_chunks` with
`n_padding = 0`, and a hash tree of leaf capacity `sedes.chunk_count` built
over those chunks (`[ZERO_CHUNK]` when the input is empty). -/
theorem C2_from_iterable_root (iterable : List α) (sedes : Sedes α)
    (hcap : (if (get_appended_chunks (serializedElements sedes iterable)
        0).isEmpty then [ZERO_BYTES32]
      else get_appended_chunks (serializedElements sedes iterable) 0).length ≤
      sedes.chunk_count) :
    ∃ t, from_iterable iterable sedes = .ok t ∧
      ∀ H, HashTree.root H t.hash_tree =
        recompute_root_from_scratch H iterable sedes := by
  refine ⟨_, from_iterable_ok hcap, fun H => ?_⟩
  rfl

theorem C2_from_iterable_root_witness :
    ((if (get_appended_chunks (serializedElements sedes32 [1, 2])
        0).isEmpty then [ZERO_BYTES32]
      else get_appended_chunks (serializedElements sedes32 [1, 2]) 0).length ≤
      sedes32.chunk_count) ∧
    ∃ t, from_iterable [1, 2] sedes32 = .ok t ∧
      ∀ H, HashTree.root H t.hash_tree =
        recompute_root_from_scratch H [1, 2] sedes32 :=
  ⟨by decide, C2_from_iterable_root [1, 2] sedes32 (by decide)⟩

/-! ### C7: `repeat` / `__mul__` -/

theorem extend_ok_length {s : HashableStructure α} {vals : List α}
    {t : HashableStructure α} (h : s.extend vals = .ok t) :
    t.elements.length = s.elements.length + vals.length := by
  have he : (Evolver.extend s.evolver vals).persistent = .ok t := h
  have helems := persistent_ok_elements he
  rw [helems]
  simp [HashableStructure.evolver, Evolver.extend, applyUpdates]

theorem mul_ok_length :
    ∀ (fuel : Nat) (s : HashableStructure α) (times : Int),
      ∀ t, HashableStructure.mulAux fuel s times = .ok t →
      t.elements.length = 2 ^ (times - 1).toNat * s.elements.length := by
  intro fuel
  induction fuel with
  | zero =>
    intro s times t h
    unfold HashableStructure.mulAux at h
    by_cases h0 : times ≤ 0
    · rw [if_pos h0] at h; exact Except.noConfusion h
    · rw [if_neg h0] at h
      by_cases h1 : times = 1
      · rw [if_pos h1] at h
        cases h
        simp [h1]
      · rw [if_neg h1] at h
        exact Except.noConfusion h
  | succ fuel ih =>
    intro s times t h
    unfold HashableStructure.mulAux at h
    by_cases h0 : times ≤ 0
    · rw [if_pos h0] at h; exact Except.noConfusion h
    · rw [if_neg h0] at h
      by_cases h1 : times = 1
      · rw [if_pos h1] at h
        cases h
        simp [h1]
      · rw [if_neg h1] at h
        cases ha : s.add s.elements with
        | error e => rw [ha, except_bind_error] at h; exact Except.noConfusion h
        | ok doubled =>
          rw [ha, except_bind_ok] at h
          have hd : doubled.elements.length = 2 * s.elements.length := by
            have h2 := @extend_ok_length _ s s.elements doubled ha
            omega
          have hrec := ih doubled (times - 1) t h
          rw [hrec, hd]
          have hx : (times - 1).toNat = (times - 1 - 1).toNat + 1 := by omega
          rw [hx, pow_succ]
          ring

/-- **C7 (amended).** `repeat`/`__mul__` with `n ≤ 0` fails with
`ArgumentError`; `n = 1` returns `self`; for `n > 1` it is defined
inductively as `(self + self) * (n - 1)`, so a successful result contains
`2^(n-1) · len(s)` elements — the element count doubles at every inductive
step instead of growing by `len(s)`. -/
theorem C7_repeat_mul (s : HashableStructure α) (times : Int) :
    (times ≤ 0 → s.mul times = .error .argumentError) ∧
    s.mul 1 = .ok s ∧
    (∀ t, s.mul times = .ok t →
      t.elements.length = 2 ^ (times - 1).toNat * s.elements.length) := by
  refine ⟨?_, ?_, ?_⟩
  · intro h0
    unfold HashableStructure.mul
    cases hf : (times - 1).toNat with
    | zero => unfold HashableStructure.mulAux; rw [if_pos h0]
    | succ fuel => unfold HashableStructure.mulAux; rw [if_pos h0]
  · rfl
  · intro t h
    exact mul_ok_length (times - 1).toNat s times t h

theorem C7_repeat_mul_witness :
    HashableStructure.mul oneElemS (-1) = .error .argumentError ∧
    HashableStructure.mul oneElemS 1 = .ok oneElemS :=
  ⟨(C7_repeat_mul oneElemS (-1)).1 (by decide), (C7_repeat_mul oneElemS (-1)).2.1⟩

/-- **C7, counterexample.** Over a one-element structure, `s * 3` succeeds
with 4 elements, not the 3 · len(s) = 3 elements the claim requires. -/
theorem C7_counterexample :
    (HashableStructure.mul oneElemS 3).map (fun t => t.elements.length) =
      .ok 4 ∧ ¬ 4 = 3 * oneElemS.elements.length :=
  ⟨rfl, by decide⟩

theorem epc_pos {e : Nat} (he : 0 < e) (hdvd : e ∣ CHUNK_SIZE) : 0 < epc e := by
  rcases hdvd with ⟨k, hk⟩
  unfold epc
  rw [hk, Nat.mul_div_cancel_left _ he]
  rcases Nat.eq_zero_or_pos k with h | h
  · rw [h] at hk
    simp [CHUNK_SIZE] at hk
  · exact h

theorem epc_mul {e : Nat} (he : 0 < e) (hdvd : e ∣ CHUNK_SIZE) :
    epc e * e = CHUNK_SIZE := by
  unfold epc
  exact Nat.div_mul_cancel hdvd

theorem nthD_mem {l : List α} {j : Nat} (d : α) (h : j < l.length) :
    nthD d l j ∈ l := by
  induction l generalizing j with
  | nil => simp at h
  | cons a l ih =>
    cases j with
    | zero => simp
    | succ j => exact List.mem_cons_of_mem _ (ih (by simpa using h))

theorem elemAtD_length {e : Nat} {l : List Bytes} (hl : ∀ b ∈ l, b.length = e)
    (j : Nat) : (elemAtD e l j).length = e := by
  unfold elemAtD
  rcases Nat.lt_or_ge j l.length with h | h
  · exact hl _ (nthD_mem _ h)
  · rw [nthD_of_length_le _ h]
    simp [zeroElem]

theorem chunkPieces_length (e : Nat) (l : List Bytes) (c : Nat) :
    (chunkPieces e l c).length = epc e := by
  simp [chunkPieces]

theorem chunkPieces_uniform {e : Nat} {l : List Bytes}
    (hl : ∀ b ∈ l, b.length = e) (c : Nat) :
    ∀ p ∈ chunkPieces e l c, p.length = e := by
  intro p hp
  rcases List.mem_map.mp hp with ⟨r, -, hr⟩
  rw [← hr]
  exact elemAtD_length hl _

theorem chunkOfView_length {e : Nat} (he : 0 < e) (hdvd : e ∣ CHUNK_SIZE)
    {l : List Bytes} (hl : ∀ b ∈ l, b.length = e) (c : Nat) :
    (chunkOfView e l c).length = CHUNK_SIZE := by
  unfold chunkOfView
  rw [length_flatten_uniform (chunkPieces_uniform hl c), chunkPieces_length,
    epc_mul he hdvd]

theorem nthD_chunkPieces {e : Nat} (l : List Bytes) {c r : Nat}
    (hr : r < epc e) (d : Bytes) :
    nthD d (chunkPieces e l c) r = elemAtD e l (c * epc e + r) := by
  unfold chunkPieces
  rw [nthD_mapRange _ _ hr]

theorem numChunksOf_nil {e : Nat} (hepc : 0 < epc e) : numChunksOf e [] = 0 := by
  unfold numChunksOf
  simp only [List.length_nil, Nat.zero_add]
  exact Nat.div_eq_of_lt (by omega)

theorem viewChunks_nil {e : Nat} (hepc : 0 < epc e) : viewChunks e [] = [] := by
  unfold viewChunks
  rw [numChunksOf_nil hepc]
  rfl

theorem numChunksOf_pos {e : Nat} (hepc : 0 < epc e) {m : List Bytes}
    (hne : m ≠ []) : 0 < numChunksOf e m := by
  unfold numChunksOf
  have h1 : 1 ≤ m.length := List.length_pos.mpr hne
  have h2 : m.length + epc e - 1 = (m.length - 1) + epc e := by omega
  rw [h2, Nat.add_div_right _ hepc]
  exact Nat.succ_pos _

theorem numChunksOf_cons {e : Nat} (hepc : 0 < epc e) {m : List Bytes}
    (hne : m ≠ []) :
    numChunksOf e m = numChunksOf e (m.drop (epc e)) + 1 := by
  unfold numChunksOf
  rw [List.length_drop]
  have h1 : 1 ≤ m.length := List.length_pos.mpr hne
  rcases le_or_lt m.length (epc e) with hle | hlt
  · have h2 : m.length - epc e = 0 := by omega
    rw [h2]
    have h3 : (0 + epc e - 1) / epc e = 0 := Nat.div_eq_of_lt (by omega)
    rw [h3]
    have h4 : m.length + epc e - 1 = (m.length - 1) + epc e := by omega
    rw [h4, Nat.add_div_right _ hepc, Nat.div_eq_of_lt (by omega)]
  · have h3 : m.length + epc e - 1 = (m.length - 1) + epc e := by omega
    have h4 : m.length - epc e + epc e - 1 = (m.length - 1 - epc e) + epc e :=
      by omega
    rw [h3, h4, Nat.add_div_right _ hepc, Nat.add_div_right _ hepc,
      Nat.div_eq_sub_div hepc (by omega : epc e ≤ m.length - 1)]

theorem chunkOfView_succ_drop {e : Nat} (m : List Bytes) (c : Nat) :
    chunkOfView e m (c + 1) = chunkOfView e (m.drop (epc e)) c := by
  unfold chunkOfView chunkPieces
  congr 1
  refine mapRange_congr fun r hr => ?_
  unfold elemAtD
  rw [nthD_drop]
  congr 1
  ring

theorem viewChunks_cons {e : Nat} (hepc : 0 < epc e) {m : List Bytes}
    (hne : m ≠ []) :
    viewChunks e m = chunkOfView e m 0 :: viewChunks e (m.drop (epc e)) := by
  unfold viewChunks
  rw [numChunksOf_cons hepc hne, List.range_succ_eq_map, List.map_cons,
    List.map_map]
  congr 1
  refine mapRange_congr fun r hr => ?_
  simp only [Function.comp]
  exact chunkOfView_succ_drop m r

theorem nthD_viewChunks {e : Nat} {m : List Bytes} {c : Nat} (d : Bytes)
    (hc : c < numChunksOf e m) :
    nthD d (viewChunks e m) c = chunkOfView e m c := by
  unfold viewChunks
  rw [nthD_mapRange _ _ hc]

theorem viewChunks_length (e : Nat) (m : List Bytes) :
    (viewChunks e m).length = numChunksOf e m := by
  simp [viewChunks]

theorem partitionPadAux_irrel {n : Nat} (hn : 0 < n) (pad : α) :
    ∀ (f1 f2 : Nat) (l : List α), l.length ≤ f1 → l.length ≤ f2 →
      partitionPadAux n pad f1 l = partitionPadAux n pad f2 l := by
  intro f1
  induction f1 with
  | zero =>
    intro f2 l h1 h2
    have hl : l = [] := List.eq_nil_of_length_eq_zero (by omega)
    subst hl
    cases f2 <;> rfl
  | succ f1 ih =>
    intro f2 l h1 h2
    cases l with
    | nil => cases f2 <;> rfl
    | cons a l =>
      cases f2 with
      | zero => simp at h2
      | succ f2 =>
        unfold partitionPadAux
        by_cases hle : (a :: l).length ≤ n
        · rw [if_pos hle, if_pos hle]
        · rw [if_neg hle, if_neg hle]
          congr 1
          have h1' : l.length + 1 ≤ f1 + 1 := by simpa using h1
          have h2' : l.length + 1 ≤ f2 + 1 := by simpa using h2
          have hle' : n < l.length + 1 := by
            simpa using Nat.lt_of_not_le hle
          refine ih f2 _ ?_ ?_ <;>
            (simp only [List.length_drop, List.length_cons]; omega)

theorem partitionPad_cons {n : Nat} (hn : 0 < n) {l : List α} (hl : l ≠ [])
    (pad : α) :
    partitionPad n l pad =
      (l.take n ++ List.replicate (n - l.length) pad) ::
        partitionPad n (l.drop n) pad := by
  cases l with
  | nil => exact absurd rfl hl
  | cons a l =>
    unfold partitionPad
    rw [if_neg (by omega), if_neg (by omega)]
    have step : partitionPadAux n pad ((a :: l).length) (a :: l) =
        if (a :: l).length ≤ n then
          [(a :: l) ++ List.replicate (n - (a :: l).length) pad]
        else (a :: l).take n :: partitionPadAux n pad l.length ((a :: l).drop n) :=
      rfl
    rw [step]
    by_cases hle : (a :: l).length ≤ n
    · rw [if_pos hle]
      have hd : (a :: l).drop n = [] := List.drop_eq_nil_of_le hle
      rw [List.take_of_length_le hle, hd]
      rfl
    · rw [if_neg hle]
      have hlt := Nat.lt_of_not_le hle
      have hrep : n - (a :: l).length = 0 := by omega
      rw [hrep]
      simp only [List.replicate, List.append_nil]
      congr 1
      refine partitionPadAux_irrel hn pad l.length ((a :: l).drop n).length _
        ?_ (le_refl _)
      simp only [List.length_drop, List.length_cons] at hlt ⊢
      omega

theorem chunkOfView_zero_pieces {e : Nat} (m : List Bytes) :
    chunkPieces e m 0 =
      m.take (epc e) ++ List.replicate (epc e - m.length) (zeroElem e) := by
  refine ext_nthD (zeroElem e) ?_ fun j => ?_
  · simp [chunkPieces]
    omega
  · rcases Nat.lt_or_ge j (epc e) with hj | hj
    · rw [nthD_chunkPieces _ hj]
      simp only [Nat.zero_mul, Nat.zero_add]
      rcases Nat.lt_or_ge j (m.length) with hjm | hjm
      · rcases Nat.lt_or_ge j (m.take (epc e)).length with hjt | hjt
        · rw [nthD_append_left _ _ hjt, nthD_take _ hj]
          rfl
        · simp only [List.length_take] at hjt
          omega
      · rw [nthD_append_right _ (by simp; omega), elemAtD,
          nthD_of_length_le _ hjm, nthD_replicate]
        split <;> rfl
    · rw [nthD_of_length_le _ (by simp [chunkPieces]; omega),
        nthD_of_length_le _ (by simp; omega)]

theorem partition_flatten_eq_view {e : Nat} (hepc : 0 < epc e) :
    ∀ (fuel : Nat) (m : List Bytes), m.length ≤ fuel →
      (partitionPad (epc e) m (zeroElem e)).map List.flatten = viewChunks e m := by
  intro fuel
  induction fuel with
  | zero =>
    intro m h1
    have hm : m = [] := List.eq_nil_of_length_eq_zero (by omega)
    subst hm
    rw [viewChunks_nil hepc]
    unfold partitionPad
    rw [if_neg (by omega)]
    rfl
  | succ fuel ih =>
    intro m h1
    cases m with
    | nil =>
      rw [viewChunks_nil hepc]
      unfold partitionPad
      rw [if_neg (by omega)]
      rfl
    | cons b m0 =>
      rw [partitionPad_cons hepc (by simp), List.map_cons,
        viewChunks_cons hepc (by simp)]
      congr 1
      · rw [chunkOfView, chunkOfView_zero_pieces]
      · refine ih _ ?_
        simp only [List.length_drop]
        simp at h1 ⊢
        omega

/-- `get_appended_chunks` is the packed-chunk view of the elements after the
first `num_padding_elements`. -/
theorem get_appended_chunks_eq_view {e : Nat} (he : 0 < e)
    (hdvd : e ∣ CHUNK_SIZE) {l : List Bytes} (hl : ∀ b ∈ l, b.length = e)
    (p : Nat) : get_appended_chunks l p = viewChunks e (l.drop p) := by
  have hepc : 0 < epc e := epc_pos he hdvd
  simp only [get_appended_chunks]
  by_cases hle : l.length ≤ p
  · rw [if_pos hle, List.drop_eq_nil_of_le hle, viewChunks_nil hepc]
  · rw [if_neg hle]
    have hne : l ≠ [] := by
      intro hc
      rw [hc] at hle
      simp at hle
    have hhead : l.headD [] ∈ l := by
      cases l with
      | nil => exact absurd rfl hne
      | cons a l => simp
    have hsize : (l.headD []).length = e := hl _ hhead
    rw [hsize]
    exact partition_flatten_eq_view hepc (l.drop p).length _ (le_refl _)

theorem alookup_append (k : Nat) (a b : List (Nat × α)) :
    alookup k (a ++ b) =
      match alookup k a with
      | some v => some v
      | none => alookup k b := by
  induction a with
  | nil => simp
  | cons p a ih =>
    cases p with
    | mk k' v' =>
      by_cases h : k = k'
      · simp [alookup_cons, h]
      · simp only [List.cons_append, alookup_cons, if_neg h]
        exact ih

theorem alookup_some_mem {k : Nat} {v : α} {l : List (Nat × α)}
    (h : alookup k l = some v) : (k, v) ∈ l := by
  induction l with
  | nil => simp at h
  | cons p l ih =>
    cases p with
    | mk k' v' =>
      rw [alookup_cons] at h
      by_cases h2 : k = k'
      · rw [if_pos h2] at h
        cases h
        simp [h2]
      · rw [if_neg h2] at h
        exact List.mem_cons_of_mem _ (ih h)

theorem dictMerge_disjoint {a b : List (Nat × α)}
    (hab : ∀ p ∈ a, alookup p.1 b = none)
    (hba : ∀ q ∈ b, alookup q.1 a = none) :
    dictMerge a b = a ++ b := by
  unfold dictMerge
  congr 1
  · rw [List.map_congr_left fun p hp => ?_]
    · exact List.map_id a
    · rw [hab p hp]
      rfl
  · rw [List.filter_eq_self.mpr fun q hq => ?_]
    rw [hba q hq]
    rfl

@[simp] theorem enumFrom_length (s : Nat) (l : List α) :
    (enumFrom s l).length = l.length := by
  induction l generalizing s with
  | nil => rfl
  | cons a l ih => simp [enumFrom, ih]

theorem enumFrom_append (s : Nat) (l₁ l₂ : List α) :
    enumFrom s (l₁ ++ l₂) = enumFrom s l₁ ++ enumFrom (s + l₁.length) l₂ := by
  induction l₁ generalizing s with
  | nil => simp [enumFrom]
  | cons a l ih =>
    simp only [List.cons_append, enumFrom, List.length_cons]
    have hx : s + 1 + l.length = s + (l.length + 1) := by omega
    show (s, a) :: enumFrom (s + 1) (l ++ l₂) = _
    rw [ih, hx]

theorem mem_enumFrom_snd {s : Nat} {l : List α} {q : Nat × α}
    (h : q ∈ enumFrom s l) : q.2 ∈ l := by
  induction l generalizing s with
  | nil => simp [enumFrom] at h
  | cons a l ih =>
    rcases List.mem_cons.mp h with h | h
    · rw [h]
      simp
    · exact List.mem_cons_of_mem _ (ih h)

theorem mem_enumFrom_fst {s : Nat} {l : List α} {q : Nat × α}
    (h : q ∈ enumFrom s l) : s ≤ q.1 ∧ q.1 < s + l.length := by
  induction l generalizing s with
  | nil => simp [enumFrom] at h
  | cons a l ih =>
    rcases List.mem_cons.mp h with h | h
    · rw [h]
      simp
    · rcases ih h with ⟨h1, h2⟩
      constructor
      · omega
      · simp only [List.length_cons]
        omega

theorem alookup_enumFrom (s : Nat) (l : List α) (j : Nat) (d : α) :
    alookup j (enumFrom s l) =
      if s ≤ j ∧ j < s + l.length then some (nthD d l (j - s)) else none := by
  induction l generalizing s with
  | nil =>
    simp only [enumFrom, alookup_nil, List.length_nil, Nat.add_zero]
    rw [if_neg (by omega)]
  | cons a l ih =>
    simp only [enumFrom, alookup_cons]
    by_cases hj : j = s
    · subst hj
      rw [if_pos rfl, if_pos (by simp only [List.length_cons]; omega)]
      simp
    · rw [if_neg hj, ih (s + 1)]
      by_cases hc : s + 1 ≤ j ∧ j < s + 1 + l.length
      · rw [if_pos hc, if_pos (by simp only [List.length_cons]; omega)]
        have hix : j - s = (j - (s + 1)) + 1 := by omega
        rw [hix]
        simp
      · rw [if_neg hc, if_neg (by simp only [List.length_cons]; omega)]

theorem map_fst_enumFrom (s : Nat) (l : List α) :
    (enumFrom s l).map Prod.fst = (List.range l.length).map (s + ·) := by
  induction l generalizing s with
  | nil => rfl
  | cons a l ih =>
    simp only [enumFrom, List.map_cons, List.length_cons, List.range_succ_eq_map,
      List.map_map, ih]
    congr 1
    refine mapRange_congr fun r hr => ?_
    simp only [Function.comp]
    omega

theorem nodup_map_fst_enumFrom (s : Nat) (l : List α) :
    ((enumFrom s l).map Prod.fst).Nodup := by
  rw [map_fst_enumFrom]
  refine List.Nodup.map (fun x y hxy => by omega) (List.nodup_range _)

theorem firstDedup_go_nodup :
    ∀ (l acc : List Nat), acc.Nodup →
      (l.foldl (fun acc k => if k ∈ acc then acc else acc ++ [k]) acc).Nodup := by
  intro l
  induction l with
  | nil => intro acc h; exact h
  | cons k l ih =>
    intro acc h
    simp only [List.foldl_cons]
    by_cases hk : k ∈ acc
    · rw [if_pos hk]
      exact ih acc h
    · rw [if_neg hk]
      refine ih _ ?_
      simp [List.nodup_append, h, hk]

theorem firstDedup_go_mem :
    ∀ (l acc : List Nat) (x : Nat),
      x ∈ l.foldl (fun acc k => if k ∈ acc then acc else acc ++ [k]) acc ↔
        x ∈ acc ∨ x ∈ l := by
  intro l
  induction l with
  | nil => intro acc x; simp
  | cons k l ih =>
    intro acc x
    simp only [List.foldl_cons, List.mem_cons]
    by_cases hk : k ∈ acc
    · rw [if_pos hk, ih]
      constructor
      · rintro (h | h)
        · exact Or.inl h
        · exact Or.inr (Or.inr h)
      · rintro (h | h | h)
        · exact Or.inl h
        · exact Or.inl (h ▸ hk)
        · exact Or.inr h
    · rw [if_neg hk, ih]
      simp only [List.mem_append, List.mem_singleton]
      tauto

theorem firstDedup_nodup (l : List Nat) : (firstDedup l).Nodup :=
  firstDedup_go_nodup l [] List.nodup_nil

theorem firstDedup_mem (l : List Nat) (x : Nat) :
    x ∈ firstDedup l ↔ x ∈ l := by
  rw [firstDedup, firstDedup_go_mem]
  simp

theorem mapM_ok {γ δ : Type} {F : γ → Except Err δ} {G : γ → δ} :
    ∀ {cs : List γ}, (∀ c ∈ cs, F c = .ok (G c)) →
      cs.mapM F = .ok (cs.map G) := by
  intro cs
  induction cs with
  | nil => intro h; rfl
  | cons c cs ih =>
    intro h
    rw [List.mapM_cons, h c (by simp), except_bind_ok,
      ih fun c hc => h c (by simp [hc]), except_bind_ok]
    rfl

theorem alookup_map_self {γ : Type} (G : Nat → γ) (cs : List Nat) (c : Nat) :
    alookup c (cs.map fun c => (c, G c)) =
      if c ∈ cs then some (G c) else none := by
  induction cs with
  | nil => simp
  | cons c' cs ih =>
    simp only [List.map_cons, alookup_cons, List.mem_cons]
    by_cases h : c = c'
    · rw [if_pos h, if_pos (Or.inl h), h]
    · rw [if_neg h, ih]
      by_cases h2 : c ∈ cs
      · rw [if_pos h2, if_pos (Or.inr h2)]
      · rw [if_neg h2, if_neg (by tauto)]

/-- Looking up slot `r` in the per-chunk update set of chunk `c` is looking up
element index `c * epc + r` in the element update set. -/
theorem alookup_slotUpdates {k : Nat} (hk : 0 < k)
    (effU : List (Nat × Bytes)) (c : Nat) {r : Nat} (hr : r < k) :
    alookup r (effU.filterMap fun pr =>
      if pr.1 / k = c then some (pr.1 % k, pr.2) else none) =
      alookup (c * k + r) effU := by
  have hmod : (c * k + r) % k = r := by
    rw [Nat.mul_comm c k, Nat.mul_add_mod, Nat.mod_eq_of_lt hr]
  have hdiv : (c * k + r) / k = c := by
    rw [Nat.mul_comm c k, Nat.mul_add_div hk, Nat.div_eq_of_lt hr,
      Nat.add_zero]
  induction effU with
  | nil => simp
  | cons pr rest ih =>
    cases pr with
    | mk key val =>
      by_cases hc : key / k = c
      · have hstep : List.filterMap (fun pr =>
            if pr.1 / k = c then some (pr.1 % k, pr.2) else none)
            ((key, val) :: rest) =
            (key % k, val) :: List.filterMap (fun pr =>
              if pr.1 / k = c then some (pr.1 % k, pr.2) else none) rest := by
          rw [List.filterMap_cons, if_pos hc]
        rw [hstep, alookup_cons, alookup_cons]
        by_cases hr2 : r = key % k
        · have hkey : c * k + r = key := by
            rw [hr2, ← hc, Nat.mul_comm]
            exact Nat.div_add_mod key k
          rw [if_pos hr2, if_pos hkey]
        · rw [if_neg hr2, if_neg fun hcontra => hr2 (by rw [← hcontra, hmod])]
          exact ih
      · have hstep : List.filterMap (fun pr =>
            if pr.1 / k = c then some (pr.1 % k, pr.2) else none)
            ((key, val) :: rest) =
            List.filterMap (fun pr =>
              if pr.1 / k = c then some (pr.1 % k, pr.2) else none) rest := by
          rw [List.filterMap_cons, if_neg hc]
        rw [hstep, alookup_cons,
          if_neg fun hcontra => hc (by rw [← hcontra, hdiv])]
        exact ih

theorem get_eq_nthD {l : List α} {c : Nat} (h : c < l.length) (d : α) :
    l.get ⟨c, h⟩ = nthD d l c := by
  induction l generalizing c with
  | nil => simp at h
  | cons a l ih =>
    cases c with
    | zero => rfl
    | succ c => exact ih (by simpa using h) -- get (c+1) = get c of tail

theorem le_numChunksOf_mul {e : Nat} (hepc : 0 < epc e) (m : List Bytes) :
    m.length ≤ numChunksOf e m * epc e := by
  unfold numChunksOf
  have h1 := Nat.div_add_mod (m.length + epc e - 1) (epc e)
  have h2 := Nat.mod_lt (m.length + epc e - 1) hepc
  rw [Nat.mul_comm] at h1
  generalize hx : (m.length + epc e - 1) / epc e * epc e = x at h1 ⊢
  generalize hy : (m.length + epc e - 1) % epc e = y at h1 h2
  generalize hk : epc e = k at h1 h2 hepc
  omega

theorem num_padding_eq {e L n : Nat} (he : 0 < e) (hdvd : e ∣ CHUNK_SIZE) :
    get_num_padding_elements L n e = L * epc e - n := by
  unfold get_num_padding_elements
  rw [show L * CHUNK_SIZE = L * epc e * e from by rw [Nat.mul_assoc, epc_mul he hdvd],
    ← Nat.sub_mul, Nat.mul_div_cancel _ he]

/-- The value an element slot takes after the evolver's merged update set is
the corresponding element of the updated-and-extended element sequence. -/
theorem slot_value_eq {e : Nat}
    {ser : List Bytes} {U : List (Nat × Bytes)} {A : List Bytes}
    {n p L : Nat} (hn : n = ser.length)
    (hUnd : (U.map Prod.fst).Nodup) (hUkey : ∀ q ∈ U, q.1 < n)
    (hnp : n + p = L * epc e)
    {key : Nat} (hkey : key < L * epc e) :
    lookupD (elemAtD e ser key) key (U ++ enumFrom n (A.take p)) =
      elemAtD e (applyUpdates ser U ++ A) key := by
  have hULen : ∀ q ∈ U, q.1 < ser.length := fun q hq => by
    have := hUkey q hq
    omega
  cases hu : alookup key U with
  | some v =>
    have halk : alookup key (U ++ enumFrom n (A.take p)) = some v := by
      rw [alookup_append, hu]
    have hmem := alookup_some_mem hu
    have hklt : key < n := hUkey _ hmem
    rw [lookupD_some halk]
    unfold elemAtD
    rw [nthD_append_left _ _ (by rw [applyUpdates_length]; omega),
      nthD_applyUpdates (zeroElem e) hUnd hULen key, lookupD_some hu]
  | none =>
    cases hpad : alookup key (enumFrom n (A.take p)) with
    | some v =>
      have halk : alookup key (U ++ enumFrom n (A.take p)) = some v := by
        rw [alookup_append, hu]
        exact hpad
      rw [alookup_enumFrom n (A.take p) key (zeroElem e)] at hpad
      by_cases hcond : n ≤ key ∧ key < n + (A.take p).length
      · rw [if_pos hcond] at hpad
        have hlt : key - n < (A.take p).length := by omega
        have hlt2 : key - n < p := by
          simp only [List.length_take] at hlt
          omega
        rw [lookupD_some halk]
        cases hpad
        unfold elemAtD
        rw [nthD_append_right _ (by rw [applyUpdates_length]; omega),
          applyUpdates_length, ← hn, nthD_take _ hlt2]
      · rw [if_neg hcond] at hpad
        exact Option.noConfusion hpad
    | none =>
      have halk : alookup key (U ++ enumFrom n (A.take p)) = none := by
        rw [alookup_append, hu]
        exact hpad
      rw [lookupD_none halk]
      rw [alookup_enumFrom n (A.take p) key (zeroElem e)] at hpad
      by_cases hklt : key < n
      · unfold elemAtD
        rw [nthD_append_left _ _ (by rw [applyUpdates_length]; omega),
          nthD_applyUpdates (zeroElem e) hUnd hULen key, lookupD_none hu]
      · have hcond : ¬ (n ≤ key ∧ key < n + (A.take p).length) := by
          intro hc
          rw [if_pos hc] at hpad
          exact Option.noConfusion hpad
        push_neg at hcond
        have hge : n + (A.take p).length ≤ key := hcond (by omega)
        simp only [List.length_take] at hge
        have hA_past : A.length ≤ key - n := by
          rcases le_or_lt A.length p with hAp | hAp
          · omega
          · omega
        unfold elemAtD
        rw [nthD_of_length_le _ (by omega : ser.length ≤ key),
          nthD_append_right _ (by rw [applyUpdates_length]; omega),
          applyUpdates_length, ← hn,
          nthD_of_length_le _ hA_past]

theorem slot_keys_lt {k : Nat} (hk : 0 < k) (effU : List (Nat × Bytes))
    (c : Nat) :
    ∀ q ∈ effU.filterMap fun pr =>
      if pr.1 / k = c then some (pr.1 % k, pr.2) else none, q.1 < k := by
  intro q hq
  rcases List.mem_filterMap.mp hq with ⟨pr, -, hpr⟩
  by_cases hc : pr.1 / k = c
  · rw [if_pos hc] at hpr
    cases hpr
    exact Nat.mod_lt _ hk
  · rw [if_neg hc] at hpr
    exact Option.noConfusion hpr

theorem slot_keys_nodup {k : Nat} (hk : 0 < k) {effU : List (Nat × Bytes)}
    (hnd : (effU.map Prod.fst).Nodup) (c : Nat) :
    ((effU.filterMap fun pr =>
      if pr.1 / k = c then some (pr.1 % k, pr.2) else none).map
        Prod.fst).Nodup := by
  induction effU with
  | nil => simp
  | cons pr rest ih =>
    simp only [List.map_cons, List.nodup_cons] at hnd
    by_cases hc : pr.1 / k = c
    · have hstep : List.filterMap (fun pr =>
          if pr.1 / k = c then some (pr.1 % k, pr.2) else none) (pr :: rest) =
          (pr.1 % k, pr.2) :: List.filterMap (fun pr =>
            if pr.1 / k = c then some (pr.1 % k, pr.2) else none) rest := by
        rw [List.filterMap_cons, if_pos hc]
      rw [hstep, List.map_cons, List.nodup_cons]
      refine ⟨?_, ih hnd.2⟩
      intro hmem
      rcases List.mem_map.mp hmem with ⟨q, hq, hqfst⟩
      rcases List.mem_filterMap.mp hq with ⟨pr', hpr', hmap⟩
      by_cases hc' : pr'.1 / k = c
      · rw [if_pos hc'] at hmap
        cases hmap
        have heq : pr'.1 = pr.1 := by
          have h1 := Nat.div_add_mod pr.1 k
          have h2 := Nat.div_add_mod pr'.1 k
          simp only at hqfst
          rw [hc, hc'] at *
          omega
        exact hnd.1 (heq ▸ List.mem_map_of_mem Prod.fst hpr')
      · rw [if_neg hc'] at hmap
        exact Option.noConfusion hmap
    · have hstep : List.filterMap (fun pr =>
          if pr.1 / k = c then some (pr.1 % k, pr.2) else none) (pr :: rest) =
          List.filterMap (fun pr =>
            if pr.1 / k = c then some (pr.1 % k, pr.2) else none) rest := by
        rw [List.filterMap_cons, if_neg hc]
      rw [hstep]
      exact ih hnd.2

theorem chunk_update_pieces_eq {e : Nat} (hepc : 0 < epc e)
    {ser : List Bytes} {U : List (Nat × Bytes)} {A : List Bytes}
    {n p L : Nat} (hn : n = ser.length)
    (hUnd : (U.map Prod.fst).Nodup) (hUkey : ∀ q ∈ U, q.1 < n)
    (hnp : n + p = L * epc e)
    (hEnd : ((U ++ enumFrom n (A.take p)).map Prod.fst).Nodup)
    {c : Nat} (hc : c < L) :
    applyUpdates (chunkPieces e ser c)
      ((U ++ enumFrom n (A.take p)).filterMap fun pr =>
        if pr.1 / epc e = c then some (pr.1 % epc e, pr.2) else none) =
      chunkPieces e (applyUpdates ser U ++ A) c := by
  refine ext_nthD (zeroElem e) ?_ fun r => ?_
  · rw [applyUpdates_length, chunkPieces_length, chunkPieces_length]
  · rcases Nat.lt_or_ge r (epc e) with hr | hr
    · rw [nthD_applyUpdates (zeroElem e) (slot_keys_nodup hepc hEnd c)
        (fun q hq => by
          rw [chunkPieces_length]
          exact slot_keys_lt hepc _ c q hq) r,
        lookupD_congr_alookup _ (alookup_slotUpdates hepc _ c hr),
        nthD_chunkPieces _ hr, nthD_chunkPieces _ hr]
      have hkey : c * epc e + r < L * epc e := by
        have h1 : c + 1 ≤ L := hc
        have h2 : (c + 1) * epc e ≤ L * epc e := Nat.mul_le_mul_right _ h1
        have h3 : (c + 1) * epc e = c * epc e + epc e := by ring
        omega
      exact slot_value_eq (A := A) hn hUnd hUkey hnp hkey
    · rw [nthD_of_length_le _ (by
          rw [applyUpdates_length, chunkPieces_length]; omega),
        nthD_of_length_le _ (by rw [chunkPieces_length]; omega)]

theorem chunk_untouched_eq {e : Nat} (hepc : 0 < epc e)
    {ser : List Bytes} {U : List (Nat × Bytes)} {A : List Bytes}
    {n p L : Nat} (hn : n = ser.length)
    (hUnd : (U.map Prod.fst).Nodup) (hUkey : ∀ q ∈ U, q.1 < n)
    (hnp : n + p = L * epc e)
    {c : Nat} (hc : c < L)
    (hnone : ∀ r < epc e, alookup (c * epc e + r)
      (U ++ enumFrom n (A.take p)) = none) :
    chunkOfView e ser c = chunkOfView e (applyUpdates ser U ++ A) c := by
  unfold chunkOfView chunkPieces
  congr 1
  refine mapRange_congr fun r hr => ?_
  have hkey : c * epc e + r < L * epc e := by
    have h2 : (c + 1) * epc e ≤ L * epc e := Nat.mul_le_mul_right _ hc
    have h3 : (c + 1) * epc e = c * epc e + epc e := by ring
    omega
  have := slot_value_eq (e := e) (A := A) hn hUnd hUkey hnp hkey
  rw [lookupD_none (hnone r hr)] at this
  exact this

theorem chunk_appended_eq {e : Nat} (hepc : 0 < epc e)
    {ser : List Bytes} {U : List (Nat × Bytes)} {A : List Bytes}
    {n p L : Nat} (hn : n = ser.length)
    (hUlen : ∀ q ∈ U, q.1 < n)  -- keeps applyUpdates length = n
    (hnp : n + p = L * epc e)
    {c : Nat} (hc : L ≤ c) :
    chunkOfView e (A.drop p) (c - L) =
      chunkOfView e (applyUpdates ser U ++ A) c := by
  unfold chunkOfView chunkPieces
  congr 1
  refine mapRange_congr fun r hr => ?_
  unfold elemAtD
  rw [nthD_drop]
  have hYX : L * epc e ≤ c * epc e := Nat.mul_le_mul_right _ hc
  have hsub : (c - L) * epc e = c * epc e - L * epc e := Nat.sub_mul c L _
  have hkey_ge : n ≤ c * epc e + r := by omega
  rw [nthD_append_right _ (by rw [applyUpdates_length]; omega),
    applyUpdates_length, ← hn]
  congr 1
  omega

theorem ceil_count_arith {k : Nat} (hk : 0 < k) {n m L p : Nat}
    (hnp : n + p = L * k)
    (hL : (n = 0 ∧ L = 1 ∧ 1 ≤ m) ∨ (1 ≤ n ∧ L = (n + k - 1) / k)) :
    L + ((m - p) + k - 1) / k = (n + m + k - 1) / k := by
  rcases hL with ⟨hn0, hL1, hm1⟩ | ⟨hn1, hLv⟩
  · subst hL1
    subst hn0
    rw [Nat.one_mul] at hnp
    have hpk : p = k := by omega
    rw [hpk]
    rcases le_or_lt m k with hmk | hmk
    · rw [show m - k = 0 from by omega,
        Nat.div_eq_of_lt (by omega : 0 + k - 1 < k),
        show 0 + m + k - 1 = (m - 1) + k from by omega,
        Nat.add_div_right _ hk, Nat.div_eq_of_lt (by omega)]
    · rw [show (m - k) + k - 1 = (m - 1 - k) + k from by omega,
        show 0 + m + k - 1 = (m - 1) + k from by omega,
        Nat.add_div_right _ hk, Nat.add_div_right _ hk,
        Nat.div_eq_sub_div hk (by omega : k ≤ m - 1)]
      omega
  · have hLval : L = (n - 1) / k + 1 := by
      rw [hLv, show n + k - 1 = (n - 1) + k from by omega,
        Nat.add_div_right _ hk]
    rcases le_or_lt m p with hmp | hmp
    · rw [show m - p = 0 from by omega,
        Nat.div_eq_of_lt (by omega : 0 + k - 1 < k), Nat.add_zero,
        show n + m + k - 1 = (n + m - 1) + k from by omega,
        Nat.add_div_right _ hk]
      have h2 : (n - 1) / k ≤ (n + m - 1) / k :=
        Nat.div_le_div_right (by omega)
      have h3 : (n + m - 1) / k ≤ (L * k - 1) / k :=
        Nat.div_le_div_right (by omega)
      have hLk1 : 1 ≤ L := by
        rw [hLval]
        exact Nat.succ_le_succ (Nat.zero_le _)
      have hkL : k ≤ L * k := by
        calc k = 1 * k := (Nat.one_mul k).symm
        _ ≤ L * k := Nat.mul_le_mul_right _ hLk1
      have h4 : (L * k - 1) / k = L - 1 := by
        have hsub : (L - 1) * k = L * k - k := by
          rw [Nat.sub_mul, Nat.one_mul]
        have h5 : L * k - 1 = (k - 1) + (L - 1) * k := by omega
        rw [h5, Nat.add_mul_div_right _ _ hk, Nat.div_eq_of_lt (by omega),
          Nat.zero_add]
      have h3' : (n + m - 1) / k ≤ L - 1 := h4 ▸ h3
      have hx : (n - 1) / k = L - 1 := by
        rw [hLval, Nat.add_sub_cancel]
      have h2' : L - 1 ≤ (n + m - 1) / k := hx ▸ h2
      have heq : (n + m - 1) / k = L - 1 := Nat.le_antisymm h3' h2'
      rw [heq, hLval, Nat.add_sub_cancel]
    · rw [show (m - p) + k - 1 = (m - p - 1) + k from by omega,
        Nat.add_div_right _ hk,
        show n + m + k - 1 = (n + m - 1) + k from by omega,
        Nat.add_div_right _ hk,
        show n + m - 1 = (m - p - 1) + L * k from by omega,
        Nat.add_mul_div_right _ _ hk]
      omega

/-! ### Serialization and update commutation (toward C1) -/

theorem setNth_append_left {l₁ : List α} {i : Nat} (l₂ : List α) (a : α)
    (h : i < l₁.length) :
    setNth (l₁ ++ l₂) i a = setNth l₁ i a ++ l₂ := by
  induction l₁ generalizing i with
  | nil => simp at h
  | cons b l₁ ih =>
    cases i with
    | zero => rfl
    | succ i =>
      show b :: setNth (l₁ ++ l₂) i a = b :: (setNth l₁ i a ++ l₂)
      rw [ih (by simpa using h)]

theorem map_fst_pairmap {γ : Type} (g : Nat × α → γ) (l : List (Nat × α)) :
    ((l.map fun q => (q.1, g q)).map Prod.fst) = l.map Prod.fst := by
  rw [List.map_map]
  exact List.map_congr_left fun q _ => rfl

theorem nthD_enumFrom_map {γ : Type} (f : Nat × α → γ) (d : γ) (d' : α) :
    ∀ (l : List α) (st j : Nat), j < l.length →
      nthD d ((enumFrom st l).map f) j = f (st + j, nthD d' l j) := by
  intro l
  induction l with
  | nil =>
    intro st j h
    simp at h
  | cons a l ih =>
    intro st j h
    cases j with
    | zero => simp [enumFrom]
    | succ j =>
      have hstep := ih (st + 1) j (by simpa using h)
      simp only [enumFrom, List.map_cons, nthD_cons_succ]
      rw [hstep, show st + 1 + j = st + (j + 1) from by omega]

theorem serializedElements_length (sedes : Sedes α) (l : List α) :
    (serializedElements sedes l).length = l.length := by
  simp [serializedElements]

theorem serializedElements_uniform {e : Nat} {sedes : Sedes α}
    (hser : ∀ i x, (sedes.serialize_element_for_tree i x).length = e)
    (l : List α) : ∀ b ∈ serializedElements sedes l, b.length = e := by
  intro b hb
  rcases List.mem_map.mp hb with ⟨q, -, hq⟩
  rw [← hq]
  exact hser q.1 q.2

theorem serializedElements_append (sedes : Sedes α) (l₁ l₂ : List α) :
    serializedElements sedes (l₁ ++ l₂) =
      serializedElements sedes l₁ ++ (enumFrom l₁.length l₂).map
        (fun q => sedes.serialize_element_for_tree q.1 q.2) := by
  unfold serializedElements
  rw [enumFrom_append, List.map_append, Nat.zero_add]

theorem nthD_serializedElements (sedes : Sedes α) {l : List α} {j : Nat}
    (h : j < l.length) (d : Bytes) (d' : α) :
    nthD d (serializedElements sedes l) j =
      sedes.serialize_element_for_tree j (nthD d' l j) := by
  unfold serializedElements
  rw [nthD_enumFrom_map _ d d' l 0 j h]
  simp only [Nat.zero_add]

theorem serialized_setNth {sedes : Sedes α} {l : List α} {i : Nat} (v : α)
    (h : i < l.length) :
    serializedElements sedes (setNth l i v) =
      setNth (serializedElements sedes l) i
        (sedes.serialize_element_for_tree i v) := by
  refine ext_nthD [] ?_ fun j => ?_
  · rw [serializedElements_length, setNth_length, setNth_length,
      serializedElements_length]
  · rcases Nat.lt_or_ge j l.length with hj | hj
    · by_cases hji : j = i
      · subst hji
        rw [nthD_serializedElements sedes (by rwa [setNth_length]) [] v,
          nthD_setNth_self _ _ h,
          nthD_setNth_self _ _ (show j < (serializedElements sedes l).length by
            rwa [serializedElements_length])]
      · rw [nthD_serializedElements sedes (by rwa [setNth_length]) [] v,
          nthD_setNth_ne _ _ _ hji, nthD_setNth_ne _ _ _ hji,
          nthD_serializedElements sedes hj [] v]
    · rw [nthD_of_length_le _
          (by rw [serializedElements_length, setNth_length]; exact hj),
        nthD_of_length_le _
          (by rw [setNth_length, serializedElements_length]; exact hj)]

theorem serialized_applyUpdates (sedes : Sedes α) :
    ∀ (U : List (Nat × α)) {l : List α},
      (∀ q ∈ U, q.1 < l.length) →
      serializedElements sedes (applyUpdates l U) =
        applyUpdates (serializedElements sedes l)
          (U.map fun q => (q.1, sedes.serialize_element_for_tree q.1 q.2)) := by
  intro U
  induction U with
  | nil =>
    intro l h
    rfl
  | cons q U ih =>
    intro l h
    rw [applyUpdates_cons, List.map_cons, applyUpdates_cons,
      ih (fun r hr => by rw [setNth_length]; exact h r (by simp [hr])),
      serialized_setNth q.2 (h q (by simp))]

theorem applyUpdates_dictSet {base : List α} {U : List (Nat × α)} {i : Nat}
    (v : α) (hnd : (U.map Prod.fst).Nodup)
    (hk : ∀ q ∈ U, q.1 < base.length) (hi : i < base.length) :
    applyUpdates base (dictSet U i v) = setNth (applyUpdates base U) i v := by
  have hk' : ∀ q ∈ dictSet U i v, q.1 < base.length := by
    intro q hq
    rcases mem_dictSet hq with h | h
    · rw [h]
      exact hi
    · exact hk q h
  refine ext_nthD v ?_ fun j => ?_
  · rw [applyUpdates_length, setNth_length, applyUpdates_length]
  · rw [nthD_applyUpdates v (nodup_keys_dictSet _ _ hnd) hk' j]
    by_cases hj : j = i
    · subst hj
      rw [nthD_setNth_self _ _ (by rw [applyUpdates_length]; exact hi),
        lookupD_some (alookup_dictSet_self U j v)]
    · rw [nthD_setNth_ne _ _ _ hj, nthD_applyUpdates v hnd hk j,
        lookupD_congr_alookup _ (alookup_dictSet_ne U hj v)]

/-! ### Tree capacity and the packed chunk vector -/

theorem le_two_pow_ceilLog2 (n : Nat) : n ≤ 2 ^ ceilLog2 n := by
  unfold ceilLog2
  cases hf : (List.range (n + 1)).find? (fun d => decide (n ≤ 2 ^ d)) with
  | some d =>
    have h := List.find?_some hf
    rw [Option.getD_some]
    exact of_decide_eq_true h
  | none =>
    have h := List.find?_eq_none.mp hf n (List.mem_range.mpr (Nat.lt_succ_self n))
    simp only [decide_eq_true_eq] at h
    exact absurd (Nat.le_of_lt (Nat.lt_pow_self (by omega) n)) h

theorem flatten_replicate_zero (a b : Nat) :
    (List.replicate a (List.replicate b (0 : Nat))).flatten =
      List.replicate (a * b) 0 := by
  induction a with
  | zero => simp
  | succ a ih =>
    rw [List.replicate_succ, List.flatten_cons, ih,
      show (a + 1) * b = b + a * b from by ring, List.replicate_add]

theorem chunkOfView_nil_eq {e : Nat} (he : 0 < e) (hdvd : e ∣ CHUNK_SIZE) :
    chunkOfView e ([] : List Bytes) 0 = ZERO_BYTES32 := by
  unfold chunkOfView
  rw [chunkOfView_zero_pieces]
  simp only [List.take_nil, List.nil_append, List.length_nil, Nat.sub_zero]
  unfold zeroElem
  rw [flatten_replicate_zero, epc_mul he hdvd]
  rfl

/-- The chunk vector `from_iterable` stores is the packed view of the
serialized elements (with its zero-chunk stand-in for an empty sequence). -/
theorem packedView_eq_ifEmpty {e : Nat} (he : 0 < e) (hdvd : e ∣ CHUNK_SIZE)
    {ser : List Bytes} (hser : ∀ b ∈ ser, b.length = e) :
    (if (get_appended_chunks ser 0).isEmpty then [ZERO_BYTES32]
      else get_appended_chunks ser 0) = packedView e ser := by
  have hepc := epc_pos he hdvd
  rw [get_appended_chunks_eq_view he hdvd hser 0, List.drop_zero]
  unfold packedView
  cases ser with
  | nil =>
    simp [viewChunks_nil hepc, chunkOfView_nil_eq he hdvd]
  | cons b ser0 =>
    have hpos : 0 < (viewChunks e (b :: ser0)).length := by
      rw [viewChunks_length]
      exact numChunksOf_pos hepc (by simp)
    rw [if_neg (fun hc => by
        rw [List.isEmpty_iff] at hc
        rw [hc] at hpos
        simp at hpos),
      if_neg (by simp)]

theorem persistent_not_dirty {ev : Evolver α} (hd : ev.is_dirty = false) :
    ev.persistent = .ok ev.original_structure := by
  unfold Evolver.persistent
  rw [if_pos (by simp [hd])]

theorem evInv_evolver (s : HashableStructure α) :
    EvInv s s.elements s.evolver := by
  refine ⟨rfl, List.nodup_nil, ?_, ?_⟩
  · intro q hq
    simp [HashableStructure.evolver] at hq
  · show applyUpdates s.elements [] ++ [] = s.elements
    rw [List.append_nil]
    rfl

theorem applyEdit_inv {s : HashableStructure α} {l : List α} {ev ev' : Evolver α}
    {op : EditOp α} (hinv : EvInv s l ev) (h : ev.applyEdit op = .ok ev') :
    EvInv s (applyEditsToList l [op]) ev' := by
  obtain ⟨h1, h2, h3, h4⟩ := hinv
  cases op with
  | set i v =>
    simp only [Evolver.applyEdit, Evolver.set, h1] at h
    by_cases hi : i < s.elements.length
    · rw [if_pos hi] at h
      cases h
      refine ⟨rfl, nodup_keys_dictSet _ _ h2, ?_, ?_⟩
      · intro q hq
        rcases mem_dictSet hq with hq' | hq'
        · rw [hq']
          exact hi
        · exact h3 q hq'
      · show applyUpdates s.elements (dictSet ev.updated_elements i v) ++
          ev.appended_elements = setNth l i v
        rw [applyUpdates_dictSet v h2 h3 hi, ← h4,
          setNth_append_left _ _ (by rw [applyUpdates_length]; exact hi)]
    · rw [if_neg hi] at h
      exact Except.noConfusion h
  | append v =>
    cases h
    refine ⟨h1, h2, h3, ?_⟩
    show applyUpdates s.elements ev.updated_elements ++
      (ev.appended_elements ++ [v]) = l ++ [v]
    rw [← List.append_assoc, h4]
  | extend vs =>
    cases h
    refine ⟨h1, h2, h3, ?_⟩
    show applyUpdates s.elements ev.updated_elements ++
      (ev.appended_elements ++ vs) = l ++ vs
    rw [← List.append_assoc, h4]

theorem applyEdits_inv {s : HashableStructure α} :
    ∀ {E : List (EditOp α)} {ev ev' : Evolver α} {l : List α},
      EvInv s l ev → ev.applyEdits E = .ok ev' →
      EvInv s (applyEditsToList l E) ev' := by
  intro E
  induction E with
  | nil =>
    intro ev ev' l hinv h
    cases h
    exact hinv
  | cons op E ih =>
    intro ev ev' l hinv h
    unfold Evolver.applyEdits at h
    rw [List.foldlM_cons] at h
    cases hop : ev.applyEdit op with
    | error err =>
      rw [hop, except_bind_error] at h
      exact Except.noConfusion h
    | ok ev₁ =>
      rw [hop, except_bind_ok] at h
      have hinv₁ := applyEdit_inv hinv hop
      have hres := ih hinv₁ h
      cases op with
      | set i v => exact hres
      | append v => exact hres
      | extend vs => exact hres

theorem foldl_setNth_eq_applyUpdates (base : List α) (upd : List (Nat × α)) :
    List.foldl (fun acc pr => setNth acc pr.1 pr.2) base upd =
      applyUpdates base upd := rfl

/-- A successful `get_updated_chunks` run over a consistent chunk vector:
one pair per touched chunk index (in order of first appearance), each carrying
the corresponding chunk of the packed view of the updated-and-extended
serialized element sequence. -/
theorem get_updated_chunks_run {e : Nat} (he : 0 < e) (hdvd : e ∣ CHUNK_SIZE)
    {ser : List Bytes} {U : List (Nat × Bytes)} {A : List Bytes}
    {n p L : Nat} (hn : n = ser.length)
    (hser : ∀ b ∈ ser, b.length = e)
    (hU : ∀ q ∈ U, q.2.length = e) (hA : ∀ b ∈ A, b.length = e)
    (hUnd : (U.map Prod.fst).Nodup) (hUkey : ∀ q ∈ U, q.1 < n)
    (hnp : n + p = L * epc e)
    {C : List Bytes} (hCL : C.length = L)
    (hCc : ∀ c, c < L → nthD [] C c = chunkOfView e ser c) :
    get_updated_chunks U A C n p =
      .ok ((firstDedup ((U ++ enumFrom n (A.take p)).map
          (fun q => q.1 / epc e))).map
        fun c => (c, chunkOfView e (applyUpdates ser U ++ A) c)) := by
  have hepc : 0 < epc e := epc_pos he hdvd
  have hmerge : dictMerge U (enumFrom n (A.take p)) =
      U ++ enumFrom n (A.take p) := by
    apply dictMerge_disjoint
    · intro q hq
      apply alookup_eq_none_of_not_mem
      intro hmem
      rcases List.mem_map.mp hmem with ⟨r, hr, hr1⟩
      have h1 := (mem_enumFrom_fst hr).1
      have h2 := hUkey q hq
      omega
    · intro q hq
      apply alookup_eq_none_of_not_mem
      intro hmem
      rcases List.mem_map.mp hmem with ⟨r, hr, hr1⟩
      have h1 := (mem_enumFrom_fst hq).1
      have h2 := hUkey r hr
      omega
  have hEFnd : ((U ++ enumFrom n (A.take p)).map Prod.fst).Nodup := by
    rw [List.map_append]
    refine List.Nodup.append hUnd (nodup_map_fst_enumFrom n _) ?_
    intro a haU haE
    rcases List.mem_map.mp haU with ⟨q, hq, hq1⟩
    rcases List.mem_map.mp haE with ⟨r, hr, hr1⟩
    have h1 := hUkey q hq
    have h2 := (mem_enumFrom_fst hr).1
    omega
  have hEFval : ∀ q ∈ U ++ enumFrom n (A.take p), q.2.length = e := by
    intro q hq
    rcases List.mem_append.mp hq with h | h
    · exact hU q h
    · exact hA q.2 (List.take_subset _ _ (mem_enumFrom_snd h))
  have hEFkey : ∀ q ∈ U ++ enumFrom n (A.take p), q.1 < L * epc e := by
    intro q hq
    rcases List.mem_append.mp hq with h | h
    · have h1 := hUkey q h
      omega
    · have h1 := mem_enumFrom_fst h
      have h2 : (A.take p).length ≤ p := by
        rw [List.length_take]
        omega
      omega
  have hFc : ∀ c ∈ firstDedup ((U ++ enumFrom n (A.take p)).map
      (fun q => q.1 / epc e)),
      (if h : c < C.length then
        (update_elements_in_chunk (C.get ⟨c, h⟩)
          ((U ++ enumFrom n (A.take p)).filterMap fun pr =>
            if pr.1 / epc e = c then some (pr.1 % epc e, pr.2) else none)) >>=
          (fun updated => pure (c, updated))
      else .error Err.indexOutOfRange) =
      .ok (c, chunkOfView e (applyUpdates ser U ++ A) c) := by
    intro c hc
    have hcmem : c ∈ (U ++ enumFrom n (A.take p)).map (fun q => q.1 / epc e) :=
      (firstDedup_mem _ _).mp hc
    rcases List.mem_map.mp hcmem with ⟨q, hq, hq1⟩
    have hqlt : q.1 < L * epc e := hEFkey q hq
    have hcL : c < L := by
      rw [← hq1]
      exact Nat.div_lt_of_lt_mul (by rw [Nat.mul_comm]; exact hqlt)
    have hclen : c < C.length := by
      rw [hCL]
      exact hcL
    have hups : ∀ pr ∈ (U ++ enumFrom n (A.take p)).filterMap fun pr =>
        if pr.1 / epc e = c then some (pr.1 % epc e, pr.2) else none,
        pr.2.length = e ∧ pr.1 < (chunkPieces e ser c).length := by
      intro pr hpr
      refine ⟨?_, ?_⟩
      · rcases List.mem_filterMap.mp hpr with ⟨q', hq', hmap⟩
        by_cases hcq : q'.1 / epc e = c
        · rw [if_pos hcq] at hmap
          cases hmap
          exact hEFval q' hq'
        · rw [if_neg hcq] at hmap
          exact Option.noConfusion hmap
      · rw [chunkPieces_length]
        exact slot_keys_lt hepc _ c pr hpr
    rw [dif_pos hclen, get_eq_nthD hclen [], hCc c hcL,
      show chunkOfView e ser c = (chunkPieces e ser c).flatten from rfl,
      update_elements_in_chunk_eq_foldl he (chunkPieces_uniform hser c) hups,
      except_bind_ok, foldl_setNth_eq_applyUpdates,
      chunk_update_pieces_eq hepc hn hUnd hUkey hnp hEFnd hcL]
    rfl
  simp only [get_updated_chunks]
  split
  · rename_i heq
    cases U with
    | cons u U0 =>
      have h2 : (some u.2 : Option Bytes) = none := heq
      exact Option.noConfusion h2
    | nil =>
      cases hAt : A.take p with
      | cons a as =>
        rw [hAt] at heq
        have h2 : (some a : Option Bytes) = none := heq
        exact Option.noConfusion h2
      | nil =>
        rfl
  · rename_i se heq
    have hse : se.length = e := by
      cases U with
      | cons u U0 =>
        have h2 : (some u.2 : Option Bytes) = some se := heq
        injection h2 with h3
        rw [← h3]
        exact hU u (by simp)
      | nil =>
        have h2 : (A.take p).head? = some se := heq
        cases hAt : A.take p with
        | nil =>
          rw [hAt] at h2
          exact Option.noConfusion h2
        | cons a as =>
          rw [hAt] at h2
          injection h2 with h3
          rw [← h3]
          exact hA a (List.take_subset _ _ (by rw [hAt]; simp))
    rw [hse, show CHUNK_SIZE / e = epc e from rfl, hmerge]
    exact mapM_ok hFc

theorem map_fst_graph {γ : Type} (G : Nat → γ) (cs : List Nat) :
    ((cs.map fun c => (c, G c)).map Prod.fst) = cs := by
  induction cs with
  | nil => rfl
  | cons c cs ih => simp [ih]

/-- Writing the updated chunks over the original chunk vector and appending
the fresh chunks yields exactly the packed view of the updated-and-extended
serialized element sequence. -/
theorem final_chunks_eq {e : Nat} (he : 0 < e) (hdvd : e ∣ CHUNK_SIZE)
    {ser : List Bytes} {U : List (Nat × Bytes)} {A : List Bytes}
    {n p L : Nat} (hn : n = ser.length)
    (hUnd : (U.map Prod.fst).Nodup) (hUkey : ∀ q ∈ U, q.1 < n)
    (hnp : n + p = L * epc e)
    (hL : (n = 0 ∧ L = 1 ∧ 1 ≤ A.length) ∨ (1 ≤ n ∧ L = numChunksOf e ser))
    {C : List Bytes} (hCL : C.length = L)
    (hCc : ∀ c, c < L → nthD [] C c = chunkOfView e ser c) :
    applyUpdates C ((firstDedup ((U ++ enumFrom n (A.take p)).map
        (fun q => q.1 / epc e))).map
      fun c => (c, chunkOfView e (applyUpdates ser U ++ A) c))
      ++ viewChunks e (A.drop p) =
      viewChunks e (applyUpdates ser U ++ A) := by
  have hepc : 0 < epc e := epc_pos he hdvd
  have hlenW : (applyUpdates ser U ++ A).length = n + A.length := by
    rw [List.length_append, applyUpdates_length, ← hn]
  have hL' : (n = 0 ∧ L = 1 ∧ 1 ≤ A.length) ∨
      (1 ≤ n ∧ L = (n + epc e - 1) / epc e) := by
    rcases hL with h | ⟨h1, h2⟩
    · exact Or.inl h
    · refine Or.inr ⟨h1, ?_⟩
      rw [h2]
      unfold numChunksOf
      rw [← hn]
  have hcount : numChunksOf e (applyUpdates ser U ++ A) =
      L + numChunksOf e (A.drop p) := by
    unfold numChunksOf
    rw [hlenW, List.length_drop]
    exact (ceil_count_arith hepc hnp hL').symm
  have hEFkey : ∀ q ∈ U ++ enumFrom n (A.take p), q.1 < L * epc e := by
    intro q hq
    rcases List.mem_append.mp hq with h | h
    · have h1 := hUkey q h
      omega
    · have h1 := mem_enumFrom_fst h
      have h2 : (A.take p).length ≤ p := by
        rw [List.length_take]
        omega
      omega
  have hkeys_lt : ∀ x ∈ firstDedup ((U ++ enumFrom n (A.take p)).map
      (fun q => q.1 / epc e)), x < L := by
    intro x hx
    rcases List.mem_map.mp ((firstDedup_mem _ _).mp hx) with ⟨q, hq, hq1⟩
    rw [← hq1]
    exact Nat.div_lt_of_lt_mul (by rw [Nat.mul_comm]; exact hEFkey q hq)
  have hucky : ∀ q ∈ (firstDedup ((U ++ enumFrom n (A.take p)).map
      (fun q => q.1 / epc e))).map
        (fun c => (c, chunkOfView e (applyUpdates ser U ++ A) c)),
      q.1 < C.length := by
    intro q hq
    rcases List.mem_map.mp hq with ⟨c, hc, hc1⟩
    rw [← hc1, hCL]
    exact hkeys_lt c hc
  refine ext_nthD [] ?_ fun j => ?_
  · rw [List.length_append, applyUpdates_length, hCL, viewChunks_length,
      viewChunks_length, hcount]
  · rcases Nat.lt_or_ge j L with hjL | hjL
    · rw [nthD_append_left _ _ (by rw [applyUpdates_length, hCL]; exact hjL),
        nthD_applyUpdates []
          (by rw [map_fst_graph]; exact firstDedup_nodup _) hucky j]
      by_cases hjmem : j ∈ firstDedup ((U ++ enumFrom n (A.take p)).map
          (fun q => q.1 / epc e))
      · rw [lookupD_some (by rw [alookup_map_self, if_pos hjmem]),
          nthD_viewChunks _ (by rw [hcount]; omega)]
      · rw [lookupD_none (by rw [alookup_map_self, if_neg hjmem]),
          hCc j hjL, nthD_viewChunks _ (by rw [hcount]; omega)]
        refine chunk_untouched_eq hepc hn hUnd hUkey hnp hjL ?_
        intro r hr
        cases halkr : alookup (j * epc e + r) (U ++ enumFrom n (A.take p)) with
        | none => rfl
        | some v =>
          exfalso
          apply hjmem
          rw [firstDedup_mem]
          have hmem := alookup_some_mem halkr
          have hdivj : (j * epc e + r) / epc e = j := by
            rw [Nat.mul_comm, Nat.mul_add_div hepc, Nat.div_eq_of_lt hr,
              Nat.add_zero]
          exact hdivj ▸ List.mem_map_of_mem (fun q => q.1 / epc e) hmem
    · rw [nthD_append_right _
          (by rw [applyUpdates_length, hCL]; exact hjL),
        applyUpdates_length, hCL]
      rcases Nat.lt_or_ge (j - L) (numChunksOf e (A.drop p)) with hjd | hjd
      · rw [nthD_viewChunks _ hjd, nthD_viewChunks _ (by rw [hcount]; omega),
          chunk_appended_eq hepc hn hUkey hnp hjL]
      · rw [nthD_of_length_le _ (by rw [viewChunks_length]; exact hjd),
          nthD_of_length_le _ (by rw [viewChunks_length, hcount]; omega)]

/-- **C1.** Incremental equivalence: for every structure `s` carrying the
packed-chunk consistency invariant and every edit sequence `E` (in-range
updates, appends and extends) staged through `s.evolver()` with success,
`persistent()` succeeds and yields a structure whose element sequence is `E`
replayed directly on `s`'s elements, and whose hash tree — hence whose root
under every hash function — coincides with the tree of a structure rebuilt
from scratch via `from_iterable` over that updated element sequence. -/
theorem C1_incremental_equivalence {e : Nat} (he : 0 < e)
    (hdvd : e ∣ CHUNK_SIZE) (s : HashableStructure α)
    (hser : ∀ i x, (s.sedes.serialize_element_for_tree i x).length = e)
    (hinv : StructInv e s) (hcc : 1 ≤ s.sedes.chunk_count)
    {E : List (EditOp α)} {ev : Evolver α}
    (hev : s.evolver.applyEdits E = .ok ev)
    (hcap : numChunksOf e (serializedElements s.sedes
        (applyEditsToList s.elements E)) ≤ s.sedes.chunk_count) :
    ∃ t, ev.persistent = .ok t ∧
      t.elements = applyEditsToList s.elements E ∧
      ∃ u, from_iterable (applyEditsToList s.elements E) s.sedes = .ok u ∧
        t.hash_tree = u.hash_tree ∧
        ∀ H, HashTree.root H t.hash_tree = HashTree.root H u.hash_tree := by
  obtain ⟨horig, hUnd', hUkey', hrepl⟩ := applyEdits_inv (evInv_evolver s) hev
  have hepc : 0 < epc e := epc_pos he hdvd
  have hserlen : (serializedElements s.sedes s.elements).length =
      s.elements.length := serializedElements_length _ _
  have hserU : ∀ b ∈ serializedElements s.sedes s.elements, b.length = e :=
    serializedElements_uniform hser _
  have hU_eq : evUpdatedBytes ev = ev.updated_elements.map
      (fun q => (q.1, s.sedes.serialize_element_for_tree q.1 q.2)) := by
    unfold evUpdatedBytes
    rw [horig]
  have hA_eq : evAppendedBytes ev = (enumFrom s.elements.length
      ev.appended_elements).map
      (fun q => s.sedes.serialize_element_for_tree q.1 q.2) := by
    unfold evAppendedBytes
    rw [horig]
  have hUval : ∀ q ∈ evUpdatedBytes ev, q.2.length = e := by
    rw [hU_eq]
    intro q hq
    rcases List.mem_map.mp hq with ⟨r, -, hr⟩
    rw [← hr]
    exact hser r.1 r.2
  have hAval : ∀ b ∈ evAppendedBytes ev, b.length = e := by
    rw [hA_eq]
    intro b hb
    rcases List.mem_map.mp hb with ⟨r, -, hr⟩
    rw [← hr]
    exact hser r.1 r.2
  have hUnd : ((evUpdatedBytes ev).map Prod.fst).Nodup := by
    rw [hU_eq, map_fst_pairmap]
    exact hUnd'
  have hUkey : ∀ q ∈ evUpdatedBytes ev, q.1 < s.elements.length := by
    rw [hU_eq]
    intro q hq
    rcases List.mem_map.mp hq with ⟨r, hr, hr1⟩
    rw [← hr1]
    exact hUkey' r hr
  have hAlen : (evAppendedBytes ev).length = ev.appended_elements.length := by
    rw [hA_eq, List.length_map, enumFrom_length]
  have hbridge : serializedElements s.sedes (applyEditsToList s.elements E) =
      applyUpdates (serializedElements s.sedes s.elements) (evUpdatedBytes ev)
        ++ evAppendedBytes ev := by
    rw [← hrepl, serializedElements_append,
      serialized_applyUpdates s.sedes ev.updated_elements hUkey',
      applyUpdates_length, hU_eq, hA_eq]
  obtain ⟨hchunks, hlimit⟩ := hinv
  have hCc : ∀ c, c < s.hash_tree.chunks.length →
      nthD [] s.hash_tree.chunks c =
        chunkOfView e (serializedElements s.sedes s.elements) c := by
    intro c hc
    rw [hchunks] at hc ⊢
    unfold packedView at hc ⊢
    by_cases h0 : (serializedElements s.sedes s.elements).isEmpty = true
    · rw [if_pos h0] at hc ⊢
      have hc0 : c = 0 := by simpa using hc
      subst hc0
      rw [List.isEmpty_iff] at h0
      rw [h0]
      rfl
    · rw [if_neg h0] at hc ⊢
      rw [viewChunks_length] at hc
      exact nthD_viewChunks _ hc
  have hnple : s.elements.length ≤ s.hash_tree.chunks.length * epc e := by
    rw [hchunks]
    unfold packedView
    by_cases h0 : (serializedElements s.sedes s.elements).isEmpty = true
    · rw [if_pos h0]
      rw [List.isEmpty_iff] at h0
      have h1 : s.elements.length = 0 := by rw [← hserlen, h0]; rfl
      rw [h1]
      exact Nat.zero_le _
    · rw [if_neg h0, viewChunks_length, ← hserlen]
      exact le_numChunksOf_mul hepc _
  by_cases hd : ev.is_dirty = true
  · -- dirty commit
    have hsize : evElementSize ev = e := by
      unfold evElementSize
      cases hU' : ev.updated_elements with
      | cons q U0 =>
        rw [hU_eq, hU']
        exact hser q.1 q.2
      | nil =>
        rw [hU_eq, hU']
        cases hap' : ev.appended_elements with
        | nil =>
          exfalso
          unfold Evolver.is_dirty at hd
          rw [hU', hap'] at hd
          simp at hd
        | cons a ap0 =>
          rw [hA_eq, hap']
          exact hser _ _
    have hpad : evNumPadding ev =
        s.hash_tree.chunks.length * epc e - s.elements.length := by
      unfold evNumPadding
      rw [horig, hsize]
      exact num_padding_eq he hdvd
    have hnp : s.elements.length + evNumPadding ev =
        s.hash_tree.chunks.length * epc e := by
      rw [hpad]
      omega
    have hLdisj : (s.elements.length = 0 ∧ s.hash_tree.chunks.length = 1 ∧
        1 ≤ (evAppendedBytes ev).length) ∨
        (1 ≤ s.elements.length ∧ s.hash_tree.chunks.length =
          numChunksOf e (serializedElements s.sedes s.elements)) := by
      by_cases h0 : (serializedElements s.sedes s.elements).isEmpty = true
      · left
        rw [List.isEmpty_iff] at h0
        have hn0 : s.elements.length = 0 := by rw [← hserlen, h0]; rfl
        refine ⟨hn0, ?_, ?_⟩
        · rw [hchunks]
          unfold packedView
          rw [h0]
          rfl
        · have hU0 : ev.updated_elements = [] := by
            cases hU' : ev.updated_elements with
            | nil => rfl
            | cons q U0 =>
              have := hUkey' q (by rw [hU']; simp)
              omega
          cases hap' : ev.appended_elements with
          | nil =>
            exfalso
            unfold Evolver.is_dirty at hd
            rw [hU0, hap'] at hd
            simp at hd
          | cons a ap0 =>
            rw [hAlen, hap']
            simp
      · right
        refine ⟨?_, ?_⟩
        · rw [← hserlen]
          refine List.length_pos.mpr fun hc => ?_
          rw [List.isEmpty_iff] at h0
          exact h0 hc
        · rw [hchunks]
          unfold packedView
          rw [if_neg h0, viewChunks_length]
    have hL'' : (s.elements.length = 0 ∧ s.hash_tree.chunks.length = 1 ∧
        1 ≤ ev.appended_elements.length) ∨
        (1 ≤ s.elements.length ∧ s.hash_tree.chunks.length =
          (s.elements.length + epc e - 1) / epc e) := by
      rcases hLdisj with ⟨h1, h2, h3⟩ | ⟨h1, h2⟩
      · exact Or.inl ⟨h1, h2, by rwa [hAlen] at h3⟩
      · refine Or.inr ⟨h1, ?_⟩
        rw [h2]
        unfold numChunksOf
        rw [hserlen]
    have hnewlen_pos : 0 < s.elements.length + ev.appended_elements.length := by
      by_cases h1 : ev.updated_elements = []
      · cases hap' : ev.appended_elements with
        | nil =>
          exfalso
          unfold Evolver.is_dirty at hd
          rw [h1, hap'] at hd
          simp at hd
        | cons a ap0 =>
          rw [List.length_cons]
          omega
      · cases hU' : ev.updated_elements with
        | nil => exact absurd hU' h1
        | cons q U0 =>
          have := hUkey' q (by rw [hU']; simp)
          omega
    have hWlen : (applyUpdates (serializedElements s.sedes s.elements)
        (evUpdatedBytes ev) ++ evAppendedBytes ev).length =
        s.elements.length + ev.appended_elements.length := by
      rw [List.length_append, applyUpdates_length, hserlen, hAlen]
    have hnewser_ne :
        serializedElements s.sedes (applyEditsToList s.elements E) ≠ [] := by
      intro hc
      have hl1 := serializedElements_length s.sedes (applyEditsToList s.elements E)
      rw [hc] at hl1
      simp only [List.length_nil] at hl1
      have hl2 : (applyEditsToList s.elements E).length =
          s.elements.length + ev.appended_elements.length := by
        rw [← hrepl, List.length_append, applyUpdates_length]
      omega
    have hcount2 : numChunksOf e (serializedElements s.sedes
        (applyEditsToList s.elements E)) = s.hash_tree.chunks.length +
        numChunksOf e ((evAppendedBytes ev).drop (evNumPadding ev)) := by
      rw [hbridge]
      unfold numChunksOf
      rw [hWlen, List.length_drop, hAlen]
      exact (ceil_count_arith hepc hnp hL'').symm
    have huc := get_updated_chunks_run he hdvd hserlen.symm hserU hUval hAval
      hUnd hUkey hnp (C := s.hash_tree.chunks) rfl hCc
    have hEFkey2 : ∀ q ∈ evUpdatedBytes ev ++ enumFrom s.elements.length
        ((evAppendedBytes ev).take (evNumPadding ev)),
        q.1 < s.hash_tree.chunks.length * epc e := by
      intro q hq
      rcases List.mem_append.mp hq with h | h
      · have h1 := hUkey q h
        omega
      · have h1 := mem_enumFrom_fst h
        have h2 : ((evAppendedBytes ev).take (evNumPadding ev)).length ≤
            evNumPadding ev := by
          rw [List.length_take]
          omega
        omega
    have hkey_uc : ∀ q ∈ (firstDedup (((evUpdatedBytes ev) ++
        enumFrom s.elements.length
          ((evAppendedBytes ev).take (evNumPadding ev))).map
        (fun q => q.1 / epc e))).map
        (fun c => (c, chunkOfView e
          (applyUpdates (serializedElements s.sedes s.elements)
            (evUpdatedBytes ev) ++ evAppendedBytes ev) c)),
        q.1 < s.hash_tree.chunks.length := by
      intro q hq
      rcases List.mem_map.mp hq with ⟨c, hc, hc1⟩
      rcases List.mem_map.mp ((firstDedup_mem _ _).mp hc) with ⟨r, hr, hr1⟩
      rw [← hc1]
      show c < s.hash_tree.chunks.length
      rw [← hr1]
      exact Nat.div_lt_of_lt_mul (by rw [Nat.mul_comm]; exact hEFkey2 r hr)
    have hfinal := final_chunks_eq he hdvd hserlen.symm hUnd hUkey hnp hLdisj
      (C := s.hash_tree.chunks) rfl hCc
    rw [persistent_dirty_eq hd, horig, huc]
    simp only [except_bind_ok]
    have hmset : HashTree.mset s.hash_tree ((firstDedup (((evUpdatedBytes ev) ++
        enumFrom s.elements.length
          ((evAppendedBytes ev).take (evNumPadding ev))).map
        (fun q => q.1 / epc e))).map
        (fun c => (c, chunkOfView e
          (applyUpdates (serializedElements s.sedes s.elements)
            (evUpdatedBytes ev) ++ evAppendedBytes ev) c))) =
        .ok ⟨applyUpdates s.hash_tree.chunks ((firstDedup
          (((evUpdatedBytes ev) ++ enumFrom s.elements.length
            ((evAppendedBytes ev).take (evNumPadding ev))).map
          (fun q => q.1 / epc e))).map
          (fun c => (c, chunkOfView e
            (applyUpdates (serializedElements s.sedes s.elements)
              (evUpdatedBytes ev) ++ evAppendedBytes ev) c))),
          s.hash_tree.limit⟩ := by
      unfold HashTree.mset
      rw [if_pos (List.all_eq_true.mpr fun q hq =>
        decide_eq_true (hkey_uc q hq))]
      rfl
    rw [hmset]
    simp only [except_bind_ok]
    rw [get_appended_chunks_eq_view he hdvd hAval]
    have hne2 : (viewChunks e (serializedElements s.sedes
        (applyEditsToList s.elements E))).isEmpty ≠ true := by
      intro hc
      rw [List.isEmpty_iff] at hc
      have hvl := viewChunks_length e
        (serializedElements s.sedes (applyEditsToList s.elements E))
      rw [hc] at hvl
      have hpos := numChunksOf_pos hepc hnewser_ne
      simp only [List.length_nil] at hvl
      omega
    have hext : HashTree.extend ⟨applyUpdates s.hash_tree.chunks ((firstDedup
        (((evUpdatedBytes ev) ++ enumFrom s.elements.length
          ((evAppendedBytes ev).take (evNumPadding ev))).map
        (fun q => q.1 / epc e))).map
        (fun c => (c, chunkOfView e
          (applyUpdates (serializedElements s.sedes s.elements)
            (evUpdatedBytes ev) ++ evAppendedBytes ev) c))),
        s.hash_tree.limit⟩
        (viewChunks e ((evAppendedBytes ev).drop (evNumPadding ev))) =
        .ok ⟨applyUpdates s.hash_tree.chunks ((firstDedup
          (((evUpdatedBytes ev) ++ enumFrom s.elements.length
            ((evAppendedBytes ev).take (evNumPadding ev))).map
          (fun q => q.1 / epc e))).map
          (fun c => (c, chunkOfView e
            (applyUpdates (serializedElements s.sedes s.elements)
              (evUpdatedBytes ev) ++ evAppendedBytes ev) c))) ++
          viewChunks e ((evAppendedBytes ev).drop (evNumPadding ev)),
          s.hash_tree.limit⟩ := by
      unfold HashTree.extend
      rw [if_neg fun hcon => ?_]
      rw [applyUpdates_length, viewChunks_length, hlimit] at hcon
      have h1 : s.sedes.chunk_count ≤
          2 ^ HashTree.depth s.sedes.chunk_count :=
        le_trans (le_max_left _ 1) (le_two_pow_ceilLog2 _)
      have h2 := hcap
      rw [hcount2] at h2
      omega
    rw [hext]
    simp only [except_bind_ok]
    refine ⟨_, rfl, hrepl, ?_⟩
    have hcap'' : (if (get_appended_chunks (serializedElements s.sedes
        (applyEditsToList s.elements E)) 0).isEmpty then [ZERO_BYTES32]
        else get_appended_chunks (serializedElements s.sedes
          (applyEditsToList s.elements E)) 0).length ≤
        s.sedes.chunk_count := by
      rw [get_appended_chunks_eq_view he hdvd
          (serializedElements_uniform hser _) 0, List.drop_zero,
        if_neg hne2, viewChunks_length]
      exact hcap
    have hfield : applyUpdates s.hash_tree.chunks ((firstDedup
        (((evUpdatedBytes ev) ++ enumFrom s.elements.length
          ((evAppendedBytes ev).take (evNumPadding ev))).map
        (fun q => q.1 / epc e))).map
        (fun c => (c, chunkOfView e
          (applyUpdates (serializedElements s.sedes s.elements)
            (evUpdatedBytes ev) ++ evAppendedBytes ev) c))) ++
        viewChunks e ((evAppendedBytes ev).drop (evNumPadding ev)) =
        (if (get_appended_chunks (serializedElements s.sedes
          (applyEditsToList s.elements E)) 0).isEmpty then [ZERO_BYTES32]
        else get_appended_chunks (serializedElements s.sedes
          (applyEditsToList s.elements E)) 0) := by
      rw [get_appended_chunks_eq_view he hdvd
          (serializedElements_uniform hser _) 0, List.drop_zero,
        if_neg hne2, hfinal, hbridge]
    have htr2 : (⟨applyUpdates s.hash_tree.chunks ((firstDedup
        (((evUpdatedBytes ev) ++ enumFrom s.elements.length
          ((evAppendedBytes ev).take (evNumPadding ev))).map
        (fun q => q.1 / epc e))).map
        (fun c => (c, chunkOfView e
          (applyUpdates (serializedElements s.sedes s.elements)
            (evUpdatedBytes ev) ++ evAppendedBytes ev) c))) ++
        viewChunks e ((evAppendedBytes ev).drop (evNumPadding ev)),
        s.hash_tree.limit⟩ : HashTree) =
        ⟨if (get_appended_chunks (serializedElements s.sedes
          (applyEditsToList s.elements E)) 0).isEmpty then [ZERO_BYTES32]
        else get_appended_chunks (serializedElements s.sedes
          (applyEditsToList s.elements E)) 0, s.sedes.chunk_count⟩ := by
      rw [hfield, hlimit]
    exact ⟨_, from_iterable_ok hcap'', htr2,
      fun H => congrArg (HashTree.root H) htr2⟩
  · -- nothing staged: `persistent` returns the original reference
    have hdf : ev.is_dirty = false := by
      cases hb : ev.is_dirty with
      | true => exact absurd hb hd
      | false => rfl
    obtain ⟨hU0, hap0⟩ := (is_dirty_false_iff ev).mp hdf
    have hnewE : applyEditsToList s.elements E = s.elements := by
      rw [← hrepl, hU0, hap0, List.append_nil]
      rfl
    rw [hnewE]
    have hpacked := packedView_eq_ifEmpty he hdvd hserU
    have hcap' : (if (get_appended_chunks (serializedElements s.sedes
        s.elements) 0).isEmpty then [ZERO_BYTES32]
        else get_appended_chunks (serializedElements s.sedes s.elements)
          0).length ≤ s.sedes.chunk_count := by
      rw [hpacked]
      unfold packedView
      by_cases h0 : (serializedElements s.sedes s.elements).isEmpty = true
      · rw [if_pos h0]
        simpa using hcc
      · rw [if_neg h0, viewChunks_length]
        rw [hnewE] at hcap
        exact hcap
    have htr : s.hash_tree = (⟨if (get_appended_chunks (serializedElements
        s.sedes s.elements) 0).isEmpty then [ZERO_BYTES32]
        else get_appended_chunks (serializedElements s.sedes s.elements) 0,
        s.sedes.chunk_count⟩ : HashTree) := by
      rw [show s.hash_tree = (⟨s.hash_tree.chunks, s.hash_tree.limit⟩ :
          HashTree) from rfl, hchunks, hlimit, hpacked]
    refine ⟨s, ?_, rfl, ?_⟩
    · rw [persistent_not_dirty hdf, horig]
    · exact ⟨_, from_iterable_ok hcap', htr,
        fun H => congrArg (HashTree.root H) htr⟩

theorem C1_incremental_equivalence_witness :
    ((0 : Nat) < 16 ∧ 16 ∣ CHUNK_SIZE ∧
      (∀ i x, (twoElemS.sedes.serialize_element_for_tree i x).length = 16) ∧
      StructInv 16 twoElemS ∧ 1 ≤ twoElemS.sedes.chunk_count ∧
      twoElemS.evolver.applyEdits
        [EditOp.set 0 1, .append 2, .append 3, .append 4] =
        .ok ⟨twoElemS, [(0, 1)], [2, 3, 4]⟩ ∧
      numChunksOf 16 (serializedElements twoElemS.sedes
        (applyEditsToList twoElemS.elements
          [EditOp.set 0 1, .append 2, .append 3, .append 4])) ≤
        twoElemS.sedes.chunk_count) ∧
    ∃ t, (⟨twoElemS, [(0, 1)], [2, 3, 4]⟩ : Evolver Nat).persistent = .ok t ∧
      t.elements = applyEditsToList twoElemS.elements
        [EditOp.set 0 1, .append 2, .append 3, .append 4] ∧
      ∃ u, from_iterable (applyEditsToList twoElemS.elements
          [EditOp.set 0 1, .append 2, .append 3, .append 4]) twoElemS.sedes =
        .ok u ∧ t.hash_tree = u.hash_tree ∧
        ∀ H, HashTree.root H t.hash_tree = HashTree.root H u.hash_tree :=
  ⟨⟨by decide, by decide, fun i x => by simp [twoElemS, sedes16],
    ⟨by decide, by decide⟩, by decide, rfl, by decide⟩,
    @C1_incremental_equivalence Nat 16 (by decide) (by decide) twoElemS
      (fun i x => by simp [twoElemS, sedes16]) ⟨by decide, by decide⟩
      (by decide)
      [EditOp.set 0 1, .append 2, .append 3, .append 4]
      ⟨twoElemS, [(0, 1)], [2, 3, 4]⟩ rfl (by decide)⟩
